import Mathlib

/-!
Verification development for the `RateLimit` task pacer of the OrangeRed
repository.  The repository contains two variants of the rate limiter:

* `src/RateLimit.ts` — the burst-allowance variant: a singly linked queue
  with `head` / `tail` / `priority_tail` cursors, a drain loop that invokes
  `requests_made / requests_allowed < limit_after_percent` many tasks
  back-to-back before throttling with a widened delay, and a recurring
  window-reset timer.
* an earlier fixed-delay variant (identical queue and `push`, a drain loop
  that sleeps `delay_ms` after every task).

The embedding below models the mutable node chain as an allocation map
`Nat → Option QNode` plus an allocation counter; `push` performs exactly the
pointer splices of the source, and the `async run` loop is given a
small-step semantics whose suspension point (the `await` between invoking a
task and advancing `head`) is explicit, so that pushes interleaved with the
drain are represented faithfully.  JavaScript numbers appearing in the
constructor are modelled by `JSNum` (rationals extended with `NaN` and the
infinities); all divisions performed by the source on these values are
exact in this range, with the caveat that negative zero is not modelled.
-/

namespace RL

/-- Model of a JavaScript `number` restricted to the values this program
can produce: a rational, `NaN`, or an infinity. Negative zero is not
distinguished from zero. -/
inductive JSNum where
  | nan : JSNum
  | inf : JSNum
  | ninf : JSNum
  | fin : ℚ → JSNum
deriving DecidableEq, Repr

/-- JavaScript `/` on `JSNum` (IEEE semantics for the modelled range:
division by zero gives a signed infinity, `NaN` propagates). -/
def jsDiv : JSNum → JSNum → JSNum
  | .nan, _ => .nan
  | _, .nan => .nan
  | .inf, .inf => .nan
  | .inf, .ninf => .nan
  | .ninf, .inf => .nan
  | .ninf, .ninf => .nan
  | .inf, .fin b => if b < 0 then .ninf else .inf
  | .ninf, .fin b => if b < 0 then .inf else .ninf
  | .fin _, .inf => .fin 0
  | .fin _, .ninf => .fin 0
  | .fin a, .fin b =>
      if b = 0 then (if a = 0 then .nan else if 0 < a then .inf else .ninf)
      else .fin (a / b)

/-- Numeric value of a list of decimal digit characters. -/
def digitsToNat (ds : List Char) : ℕ :=
  ds.foldl (fun a c => a * 10 + (c.toNat - 48)) 0

/-- Model of JavaScript `parseInt(s, 10)`: skip leading whitespace, read an
optional sign and then the longest run of decimal digits; `NaN` when no
digit is found. -/
def parseIntJS (s : String) : JSNum :=
  let cs := s.toList.dropWhile (fun c => c = ' ' ∨ c = '\t' ∨ c = '\n' ∨ c = '\r')
  match cs with
  | '-' :: rest =>
      let ds := rest.takeWhile Char.isDigit
      if ds = [] then .nan else .fin (-(digitsToNat ds : ℚ))
  | '+' :: rest =>
      let ds := rest.takeWhile Char.isDigit
      if ds = [] then .nan else .fin (digitsToNat ds : ℚ)
  | _ =>
      let ds := cs.takeWhile Char.isDigit
      if ds = [] then .nan else .fin (digitsToNat ds : ℚ)

/-- Model of `str.split(/ +(.*)/)` destructured into its first two
elements: split at the first run of spaces; `none` as second component when
the string contains no space (the destructured `interval` is then
`undefined`). -/
def jsSplitOnce (s : String) : String × Option String :=
  let cs := s.toList
  match cs.findIdx? (fun c => c = ' ') with
  | none => (s, none)
  | some i =>
      (String.mk (cs.take i), some (String.mk ((cs.drop i).dropWhile (fun c => c = ' '))))

/-- The `switch (interval)` of both constructors: unit duration in
milliseconds for the four recognized unit strings. -/
def intervalMsOf (interval : String) : Option ℚ :=
  if interval = "per second" then some 1000
  else if interval = "per minute" then some 60000
  else if interval = "per hour" then some 3600000
  else if interval = "per day" then some 86400000
  else none

/-- The constant `limit_after_percent = 0.5` of the burst variant. -/
def limit_after_percent : ℚ := 1/2

/-- Configuration produced by the burst-variant constructor: the stored
`delay_ms`, the `requests_allowed` quota, and the `setInterval` period
`interval_ms` of the window-reset timer. -/
structure BCfgC where
  delay_ms : JSNum
  requests_allowed : JSNum
  interval_ms : ℚ
deriving DecidableEq, Repr

/-- Burst-variant constructor, numeric form `(per_interval, interval)`:
`delay_ms = interval_ms / per_interval / (1 - limit_after_percent)`,
`requests_allowed = per_interval`, and a reset timer every `interval_ms`.
Throws `Invalid duration` on an unrecognized unit. -/
def rateLimitCtor2 (per_interval : JSNum) (interval : String) : Except String BCfgC :=
  match intervalMsOf interval with
  | none => .error "Invalid duration"
  | some ms =>
      .ok ⟨jsDiv (jsDiv (.fin ms) per_interval) (.fin (1 - limit_after_percent)),
           per_interval, ms⟩

/-- Burst-variant constructor, string form: split on the first space run,
`parseInt` the first token, and use the remainder as the unit (missing
remainder behaves as `undefined`, hitting the `default` case). -/
def rateLimitCtor1 (spec : String) : Except String BCfgC :=
  match jsSplitOnce spec with
  | (_, none) => .error "Invalid duration"
  | (count_str, some interval) => rateLimitCtor2 (parseIntJS count_str) interval

/-- Configuration produced by the fixed-delay variant's constructor. -/
structure FCfgC where
  delay_ms : JSNum
deriving DecidableEq, Repr

/-- Fixed-delay variant constructor, numeric form:
`delay_ms = interval_ms / per_interval`. -/
def rateLimitCtor2F (per_interval : JSNum) (interval : String) : Except String FCfgC :=
  match intervalMsOf interval with
  | none => .error "Invalid duration"
  | some ms => .ok ⟨jsDiv (.fin ms) per_interval⟩

/-- Fixed-delay variant constructor, string form. -/
def rateLimitCtor1F (spec : String) : Except String FCfgC :=
  match jsSplitOnce spec with
  | (_, none) => .error "Invalid duration"
  | (count_str, some interval) => rateLimitCtor2F (parseIntJS count_str) interval

/-- A queue node: the task's identity (standing for the opaque callable),
whether invoking it throws, and the forward link. -/
structure QNode where
  fn_id : ℕ
  throws : Bool
  next : Option ℕ
deriving DecidableEq, Repr

/-- Where the drain loop currently stands: not running, suspended at the
`await` (the just-invoked node is still `head`), or aborted because an
invoked task threw (the rejection of the `run()` promise). -/
inductive PC where
  | idle : PC
  | sleeping : PC
  | crashed : PC
deriving DecidableEq, Repr

/-- Observable events of a run: a task invocation (with the model time at
which it happens) or a suspension of the given duration. -/
inductive TraceEv where
  | invoke (tid : ℕ) (t : ℚ)
  | sleep (d : ℚ)
deriving DecidableEq, Repr

/-- Time-erased trace events, used to state per-iteration behavior. -/
inductive ShEv where
  | inv (tid : ℕ)
  | slp (d : ℚ)
deriving DecidableEq, Repr

/-- The limiter's mutable state: the node heap (allocation map plus
counter), the three cursors, the `is_running` flag, the drain loop's
suspension point, the burst counter `requests_made`, the model clock, and
the observation trace. -/
structure St where
  arena : ℕ → Option QNode
  alloc : ℕ
  head : Option ℕ
  tail : Option ℕ
  priority_tail : Option ℕ
  is_running : Bool
  pc : PC
  requests_made : ℕ
  now : ℚ
  trace : List TraceEv

/-- The freshly constructed limiter: empty chain, not running. -/
def St.init : St :=
  ⟨fun _ => none, 0, none, none, none, false, .idle, 0, 0, []⟩

/-- Heap update: (re)bind index `i` to node `nd`. -/
def setNode (arena : ℕ → Option QNode) (i : ℕ) (nd : QNode) : ℕ → Option QNode :=
  fun j => if j = i then some nd else arena j

/-- Task id stored at heap index `i` (0 for an unallocated index). -/
def idAt (arena : ℕ → Option QNode) (i : ℕ) : ℕ :=
  match arena i with
  | some nd => nd.fn_id
  | none => 0

/-- Throw flag stored at heap index `i`. -/
def thrAt (arena : ℕ → Option QNode) (i : ℕ) : Bool :=
  match arena i with
  | some nd => nd.throws
  | none => false

/-- The queue-splicing part of `push(fn, priority)` — the five-way
if/else-if chain of the source, in order:
1. priority push into an empty chain: the new node becomes `head`, `tail`
   and `priority_tail`;
2. priority push with a `priority_tail` present: splice the new node
   right after `priority_tail` (inheriting its old `next`) and make it the
   new `priority_tail` — `tail` is not touched;
3. priority push otherwise: insert at the front, the old `head` becomes
   the successor;
4. normal push into an empty chain;
5. normal push: append after `tail`.
The branches where the source would dereference a missing node
(`priority_tail.next` / `tail!.next` on an unallocated index) return the
state unchanged; they are unreachable from the initial state. -/
def pushQ (s : St) (tid : ℕ) (thr : Bool) (priority : Bool) : St :=
  let n := s.alloc
  if priority ∧ s.head = none then
    { s with arena := setNode s.arena n ⟨tid, thr, none⟩, alloc := n + 1,
             head := some n, tail := some n, priority_tail := some n }
  else if priority ∧ s.priority_tail ≠ none then
    match s.priority_tail with
    | some p =>
        match s.arena p with
        | some pnd =>
            { s with arena := setNode (setNode s.arena p ⟨pnd.fn_id, pnd.throws, some n⟩)
                               n ⟨tid, thr, pnd.next⟩,
                     alloc := n + 1, priority_tail := some n }
        | none => s
    | none => s
  else if priority then
    { s with arena := setNode s.arena n ⟨tid, thr, s.head⟩, alloc := n + 1,
             head := some n, priority_tail := some n }
  else if s.head = none then
    { s with arena := setNode s.arena n ⟨tid, thr, none⟩, alloc := n + 1,
             head := some n, tail := some n }
  else
    match s.tail with
    | some t =>
        match s.arena t with
        | some tnd =>
            { s with arena := setNode (setNode s.arena t ⟨tnd.fn_id, tnd.throws, some n⟩)
                               n ⟨tid, thr, none⟩,
                     alloc := n + 1, tail := some n }
        | none => s
    | none => s

/-- Drain-loop configuration of the burst variant (a validly constructed
limiter has finite `requests_allowed` and `delay_ms`). -/
structure DCfg where
  requests_allowed : ℚ
  delay_ms : ℚ
deriving DecidableEq, Repr

/-- End of the drain loop: `delete this.head / tail / priority_tail` and
`is_running = false`. -/
def cleanupSt (s : St) : St :=
  { s with head := none, tail := none, priority_tail := none,
           is_running := false, pc := .idle }

/-- The synchronous portion of the burst variant's `run()` loop, from the
`while` test up to the next suspension point.  Each iteration increments
`requests_made`, invokes `head.fn()` (recording it; a throwing task aborts
the loop, leaving `is_running` set and skipping the cleanup), then either
suspends for `delay_ms` when
`requests_made / requests_allowed >= limit_after_percent` (the advance of
`head` happens at wake-up, after the `await`) or advances `head`
immediately and continues.  Fuel bounds the number of synchronous
iterations; any value above the chain length is exact. -/
def runLoop (cfg : DCfg) : ℕ → St → St
  | 0, s => s
  | fuel + 1, s =>
      match s.head with
      | none => cleanupSt s
      | some i =>
          match s.arena i with
          | none => cleanupSt s
          | some nd =>
              let s1 := { s with requests_made := s.requests_made + 1,
                                 trace := s.trace ++ [TraceEv.invoke nd.fn_id s.now] }
              if nd.throws then { s1 with pc := .crashed }
              else if (s1.requests_made : ℚ) / cfg.requests_allowed ≥ limit_after_percent then
                { s1 with pc := .sleeping, trace := s1.trace ++ [TraceEv.sleep cfg.delay_ms] }
              else
                runLoop cfg fuel { s1 with head := nd.next }

/-- The pending `setTimeout` of the burst variant fires: advance the model
clock by the slept delay, perform `this.head = this.head.next` (reading the
current heap, so splices made during the sleep are seen), and resume the
loop. A wake in any state other than `sleeping` is a no-op (no timer is
pending there). -/
def wakeB (cfg : DCfg) (s : St) : St :=
  if s.pc = .sleeping then
    match s.head with
    | some i =>
        match s.arena i with
        | some nd => runLoop cfg (s.alloc + 1) { s with head := nd.next, now := s.now + cfg.delay_ms }
        | none => runLoop cfg (s.alloc + 1) { s with head := none, now := s.now + cfg.delay_ms }
    | none => s
  else s

/-- Full `push` of the burst variant: splice, then `if (!this.is_running)
this.run()`.  `run()` is an `async` function called without `await`, so its
body executes synchronously up to the first suspension point, inside the
`push` call. -/
def pushFull (cfg : DCfg) (s : St) (tid : ℕ) (thr : Bool) (priority : Bool) : St :=
  let s' := pushQ s tid thr priority
  if s'.is_running then s' else runLoop cfg (s'.alloc + 1) { s' with is_running := true }

/-- Keep firing the pending timer until the loop is no longer suspended. -/
def driveB (cfg : DCfg) : ℕ → St → St
  | 0, s => s
  | f + 1, s => if s.pc = .sleeping then driveB cfg f (wakeB cfg s) else s

/-- Start the drain on a quiescent state and let it run to completion
(enough fuel for any chain allocated so far). -/
def fullDrain (cfg : DCfg) (s : St) : St :=
  driveB cfg (s.alloc + 1) (runLoop cfg (s.alloc + 1) { s with is_running := true })

/-- External events of the burst variant: a `push` call, the pacing timer
firing, and the recurring `setInterval` window-reset callback
`() => (this.requests_made = 0)`. -/
inductive Ev where
  | push (tid : ℕ) (thr : Bool) (priority : Bool)
  | wake
  | reset
deriving DecidableEq, Repr

/-- One event of the burst variant. -/
def step (cfg : DCfg) (s : St) : Ev → St
  | .push tid thr p => pushFull cfg s tid thr p
  | .wake => wakeB cfg s
  | .reset => { s with requests_made := 0 }

/-- Run a sequence of events from a state (burst variant). -/
def runEvents (cfg : DCfg) (evs : List Ev) (s : St) : St :=
  evs.foldl (step cfg) s

/-- Drain-loop configuration of the fixed-delay variant. -/
structure FCfg where
  delay_ms : ℚ
deriving DecidableEq, Repr

/-- One iteration of the fixed-delay variant's `run()` loop: invoke
`head.fn()` (a throw aborts the loop as above) and then always suspend for
`delay_ms`; the advance of `head` happens at wake-up.  Because every
iteration awaits, the synchronous portion is a single iteration. -/
def runLoopF (cfg : FCfg) (s : St) : St :=
  match s.head with
  | none => cleanupSt s
  | some i =>
      match s.arena i with
      | none => cleanupSt s
      | some nd =>
          let s1 := { s with trace := s.trace ++ [TraceEv.invoke nd.fn_id s.now] }
          if nd.throws then { s1 with pc := .crashed }
          else { s1 with pc := .sleeping, trace := s1.trace ++ [TraceEv.sleep cfg.delay_ms] }

/-- The fixed-delay variant's pending timer fires. -/
def wakeF (cfg : FCfg) (s : St) : St :=
  if s.pc = .sleeping then
    match s.head with
    | some i =>
        match s.arena i with
        | some nd => runLoopF cfg { s with head := nd.next, now := s.now + cfg.delay_ms }
        | none => runLoopF cfg { s with head := none, now := s.now + cfg.delay_ms }
    | none => s
  else s

/-- Full `push` of the fixed-delay variant. -/
def pushFullF (cfg : FCfg) (s : St) (tid : ℕ) (thr : Bool) (priority : Bool) : St :=
  let s' := pushQ s tid thr priority
  if s'.is_running then s' else runLoopF cfg { s' with is_running := true }

/-- One event of the fixed-delay variant (it has no reset timer). -/
def stepF (cfg : FCfg) (s : St) : Ev → St
  | .push tid thr p => pushFullF cfg s tid thr p
  | .wake => wakeF cfg s
  | .reset => s

/-- Run a sequence of events from a state (fixed-delay variant). -/
def runEventsF (cfg : FCfg) (evs : List Ev) (s : St) : St :=
  evs.foldl (stepF cfg) s

/-- The node indices reachable from a pointer by following `next`, cut off
by fuel (any fuel above the chain length is exact for well-formed chains). -/
def chainFrom (arena : ℕ → Option QNode) : ℕ → Option ℕ → List ℕ
  | 0, _ => []
  | _, none => []
  | fuel + 1, some i =>
      match arena i with
      | some nd => i :: chainFrom arena fuel nd.next
      | none => [i]

/-- Indices of the chain starting at `head`. -/
def chainIds (s : St) : List ℕ :=
  chainFrom s.arena (s.alloc + 1) s.head

/-- Task ids along the chain starting at `head`. -/
def chainTaskIds (s : St) : List ℕ :=
  (chainIds s).map (idAt s.arena)

/-- Ids of the tasks invoked so far, in order. -/
def invokedIds (t : List TraceEv) : List ℕ :=
  t.filterMap (fun e => match e with | .invoke tid _ => some tid | .sleep _ => none)

/-- Invocations with their times. -/
def invokeTimes (t : List TraceEv) : List (ℕ × ℚ) :=
  t.filterMap (fun e => match e with | .invoke tid tm => some (tid, tm) | .sleep _ => none)

/-- Erase times from a trace. -/
def traceShape (t : List TraceEv) : List ShEv :=
  t.map (fun e => match e with | .invoke tid _ => .inv tid | .sleep d => .slp d)

/-- The per-iteration shape of the burst drain starting from counter value
`m`: each task is invoked, and is followed by a suspension of `delay_ms`
exactly when the incremented counter satisfies the source's test
`requests_made / requests_allowed >= limit_after_percent`. -/
def burstShape (cfg : DCfg) : ℕ → List ℕ → List ShEv
  | _, [] => []
  | m, tid :: rest =>
      .inv tid ::
        ((if ((m + 1 : ℕ) : ℚ) / cfg.requests_allowed ≥ limit_after_percent
          then [ShEv.slp cfg.delay_ms] else []) ++ burstShape cfg (m + 1) rest)

/-- A segment check: following `next` from `cur` visits exactly the indices
of `l`, all allocated. -/
def linkedSeg (arena : ℕ → Option QNode) : Option ℕ → List ℕ → Bool
  | _, [] => true
  | none, _ :: _ => false
  | some c, i :: rest =>
      (c == i) && (match arena i with
        | some nd => linkedSeg arena nd.next rest
        | none => false)

/-- The pointer immediately after a segment. -/
def segEnd (arena : ℕ → Option QNode) : Option ℕ → List ℕ → Option ℕ
  | cur, [] => cur
  | _, i :: rest =>
      match arena i with
      | some nd => segEnd arena nd.next rest
      | none => none

/-- A complete chain check: the segment matches and terminates in `none`. -/
def linkedB (arena : ℕ → Option QNode) (cur : Option ℕ) (l : List ℕ) : Bool :=
  linkedSeg arena cur l && (segEnd arena cur l == none)

/-- Apply a sequence of non-throwing push splices (task id, priority flag),
without the drain trigger. -/
def applyPushes (seq : List (ℕ × Bool)) (s : St) : St :=
  seq.foldl (fun s p => pushQ s p.1 false p.2) s

/-- Ids of the priority pushes of a sequence, in order. -/
def prioIds (seq : List (ℕ × Bool)) : List ℕ :=
  (seq.filter (fun p => p.2)).map Prod.fst

/-- Ids of the normal pushes of a sequence, in order. -/
def normIds (seq : List (ℕ × Bool)) : List ℕ :=
  (seq.filter (fun p => !p.2)).map Prod.fst

/-- Invoked ids of a time-erased trace. -/
def shInvoked (l : List ShEv) : List ℕ :=
  l.filterMap (fun e => match e with | .inv tid => some tid | .slp _ => none)

theorem setNode_eq (arena : ℕ → Option QNode) (i : ℕ) (nd : QNode) :
    setNode arena i nd i = some nd := by
  simp [setNode]

theorem setNode_ne (arena : ℕ → Option QNode) (i : ℕ) (nd : QNode) {j : ℕ} (h : j ≠ i) :
    setNode arena i nd j = arena j := by
  simp [setNode, h]

theorem linkedSeg_nil (arena : ℕ → Option QNode) (cur : Option ℕ) :
    linkedSeg arena cur [] = true := by
  cases cur <;> rfl

theorem segEnd_nil (arena : ℕ → Option QNode) (cur : Option ℕ) :
    segEnd arena cur [] = cur := rfl

theorem segEnd_cons_some {arena : ℕ → Option QNode} (cur : Option ℕ) {i : ℕ} {nd : QNode}
    (rest : List ℕ) (h : arena i = some nd) :
    segEnd arena cur (i :: rest) = segEnd arena nd.next rest := by
  simp [segEnd, h]

theorem linkedSeg_cons_iff {arena : ℕ → Option QNode} {cur : Option ℕ} {i : ℕ} {rest : List ℕ} :
    linkedSeg arena cur (i :: rest) = true ↔
      cur = some i ∧ ∃ nd, arena i = some nd ∧ linkedSeg arena nd.next rest = true := by
  cases cur with
  | none => simp [linkedSeg]
  | some c =>
      simp only [linkedSeg, Bool.and_eq_true, beq_iff_eq, Option.some.injEq]
      cases h : arena i with
      | none => simp
      | some nd => simp

theorem linkedB_nil_iff {arena : ℕ → Option QNode} {cur : Option ℕ} :
    linkedB arena cur [] = true ↔ cur = none := by
  simp [linkedB, linkedSeg_nil, segEnd_nil]

theorem linkedB_cons_iff {arena : ℕ → Option QNode} {cur : Option ℕ} {i : ℕ} {rest : List ℕ} :
    linkedB arena cur (i :: rest) = true ↔
      cur = some i ∧ ∃ nd, arena i = some nd ∧ linkedB arena nd.next rest = true := by
  unfold linkedB
  constructor
  · intro h
    rw [Bool.and_eq_true] at h
    obtain ⟨hs, he⟩ := h
    obtain ⟨hc, nd, ha, hrest⟩ := linkedSeg_cons_iff.mp hs
    refine ⟨hc, nd, ha, ?_⟩
    rw [Bool.and_eq_true]
    refine ⟨hrest, ?_⟩
    rwa [segEnd_cons_some cur rest ha] at he
  · rintro ⟨hc, nd, ha, h⟩
    rw [Bool.and_eq_true] at h ⊢
    refine ⟨linkedSeg_cons_iff.mpr ⟨hc, nd, ha, h.1⟩, ?_⟩
    rw [segEnd_cons_some cur rest ha]
    exact h.2

theorem linkedSeg_congr {arena arena' : ℕ → Option QNode} :
    ∀ {l : List ℕ}, (∀ i ∈ l, arena' i = arena i) →
      ∀ cur, linkedSeg arena' cur l = linkedSeg arena cur l := by
  intro l
  induction l with
  | nil => intro _ cur; simp [linkedSeg_nil]
  | cons i rest ih =>
      intro h cur
      cases cur with
      | none => rfl
      | some c =>
          have hi : arena' i = arena i := h i (List.mem_cons_self i rest)
          have hrec := ih (fun j hj => h j (List.mem_cons_of_mem i hj))
          cases harena : arena i with
          | none => simp [linkedSeg, hi, harena]
          | some nd => simp [linkedSeg, hi, harena, hrec]

theorem segEnd_congr {arena arena' : ℕ → Option QNode} :
    ∀ {l : List ℕ}, (∀ i ∈ l, arena' i = arena i) →
      ∀ cur, segEnd arena' cur l = segEnd arena cur l := by
  intro l
  induction l with
  | nil => intro _ cur; rfl
  | cons i rest ih =>
      intro h cur
      have hi : arena' i = arena i := h i (List.mem_cons_self i rest)
      have hrec := ih (fun j hj => h j (List.mem_cons_of_mem i hj))
      cases harena : arena i with
      | none => simp [segEnd, hi, harena]
      | some nd => simp [segEnd, hi, harena, hrec]

theorem linkedSeg_append (arena : ℕ → Option QNode) (l1 l2 : List ℕ) :
    ∀ cur, linkedSeg arena cur (l1 ++ l2)
      = (linkedSeg arena cur l1 && linkedSeg arena (segEnd arena cur l1) l2) := by
  induction l1 with
  | nil => intro cur; simp [linkedSeg_nil, segEnd_nil]
  | cons i rest ih =>
      intro cur
      cases cur with
      | none => simp [linkedSeg]
      | some c =>
          cases harena : arena i with
          | none => simp [linkedSeg, segEnd, harena]
          | some nd =>
              simp [List.cons_append, linkedSeg, segEnd, harena, ih nd.next, Bool.and_assoc]

theorem segEnd_append_of_seg (arena : ℕ → Option QNode) (l2 : List ℕ) :
    ∀ (l1 : List ℕ) (cur : Option ℕ), linkedSeg arena cur l1 = true →
      segEnd arena cur (l1 ++ l2) = segEnd arena (segEnd arena cur l1) l2 := by
  intro l1
  induction l1 with
  | nil => intro cur _; rfl
  | cons i rest ih =>
      intro cur h
      obtain ⟨hc, nd, ha, hrest⟩ := linkedSeg_cons_iff.mp h
      subst hc
      rw [List.cons_append, segEnd_cons_some _ _ ha, segEnd_cons_some _ _ ha]
      exact ih nd.next hrest

theorem linkedSeg_presence {arena : ℕ → Option QNode} :
    ∀ {l : List ℕ} {cur : Option ℕ}, linkedSeg arena cur l = true →
      ∀ i ∈ l, ∃ nd, arena i = some nd := by
  intro l
  induction l with
  | nil => simp
  | cons j rest ih =>
      intro cur h i hi
      obtain ⟨_, nd, ha, hrest⟩ := linkedSeg_cons_iff.mp h
      rcases List.mem_cons.mp hi with h1 | h2
      · subst h1; exact ⟨nd, ha⟩
      · exact ih hrest i h2

theorem nodup_bounded_length {l : List ℕ} {n : ℕ} (hn : l.Nodup) (hb : ∀ i ∈ l, i < n) :
    l.length ≤ n := by
  have h1 : l.toFinset.card = l.length := List.toFinset_card_of_nodup hn
  have h2 : l.toFinset ⊆ Finset.range n := by
    intro x hx
    simp only [List.mem_toFinset] at hx
    simpa using hb x hx
  calc l.length = l.toFinset.card := h1.symm
    _ ≤ (Finset.range n).card := Finset.card_le_card h2
    _ = n := Finset.card_range n

theorem chainFrom_of_linkedB {arena : ℕ → Option QNode} :
    ∀ (idxs : List ℕ) (cur : Option ℕ) (fuel : ℕ),
      linkedB arena cur idxs = true → idxs.length ≤ fuel → chainFrom arena fuel cur = idxs := by
  intro idxs
  induction idxs with
  | nil =>
      intro cur fuel h _
      rw [linkedB_nil_iff.mp h]
      cases fuel <;> rfl
  | cons i rest ih =>
      intro cur fuel h hf
      obtain ⟨hc, nd, ha, hrest⟩ := linkedB_cons_iff.mp h
      subst hc
      cases fuel with
      | zero => simp at hf
      | succ f =>
          simp only [chainFrom, ha]
          rw [ih nd.next f hrest (by simp only [List.length_cons] at hf; omega)]

theorem pushQ_fields (s : St) (tid : ℕ) (thr p : Bool) :
    (pushQ s tid thr p).is_running = s.is_running ∧
    (pushQ s tid thr p).pc = s.pc ∧
    (pushQ s tid thr p).requests_made = s.requests_made ∧
    (pushQ s tid thr p).trace = s.trace ∧
    (pushQ s tid thr p).now = s.now ∧
    s.alloc ≤ (pushQ s tid thr p).alloc := by
  unfold pushQ
  repeat' split
  all_goals simp

theorem runLoop_head_none (cfg : DCfg) (fuel : ℕ) (s : St) (h : s.head = none) :
    runLoop cfg (fuel + 1) s = cleanupSt s := by
  simp only [runLoop, h]

theorem runLoop_dangling (cfg : DCfg) (fuel : ℕ) (s : St) (i : ℕ)
    (hh : s.head = some i) (ha : s.arena i = none) :
    runLoop cfg (fuel + 1) s = cleanupSt s := by
  simp only [runLoop, hh, ha]

theorem runLoop_throw (cfg : DCfg) (fuel : ℕ) (s : St) (i : ℕ) (nd : QNode)
    (hh : s.head = some i) (ha : s.arena i = some nd) (ht : nd.throws = true) :
    runLoop cfg (fuel + 1) s =
      { s with requests_made := s.requests_made + 1,
               trace := s.trace ++ [TraceEv.invoke nd.fn_id s.now],
               pc := .crashed } := by
  simp only [runLoop, hh, ha, ht, if_true]

theorem runLoop_sleep (cfg : DCfg) (fuel : ℕ) (s : St) (i : ℕ) (nd : QNode)
    (hh : s.head = some i) (ha : s.arena i = some nd) (ht : nd.throws = false)
    (hb : ((s.requests_made + 1 : ℕ) : ℚ) / cfg.requests_allowed ≥ limit_after_percent) :
    runLoop cfg (fuel + 1) s =
      { s with requests_made := s.requests_made + 1,
               trace := (s.trace ++ [TraceEv.invoke nd.fn_id s.now]) ++ [TraceEv.sleep cfg.delay_ms],
               pc := .sleeping } := by
  simp only [runLoop, hh, ha, ht, Bool.false_eq_true, if_false]
  rw [if_pos hb]

theorem runLoop_continue (cfg : DCfg) (fuel : ℕ) (s : St) (i : ℕ) (nd : QNode)
    (hh : s.head = some i) (ha : s.arena i = some nd) (ht : nd.throws = false)
    (hb : ¬ ((s.requests_made + 1 : ℕ) : ℚ) / cfg.requests_allowed ≥ limit_after_percent) :
    runLoop cfg (fuel + 1) s =
      runLoop cfg fuel
        { s with requests_made := s.requests_made + 1,
                 trace := s.trace ++ [TraceEv.invoke nd.fn_id s.now],
                 head := nd.next } := by
  simp only [runLoop, hh, ha, ht, Bool.false_eq_true, if_false]
  rw [if_neg hb]

theorem wakeB_run (cfg : DCfg) (s : St) (i : ℕ) (nd : QNode)
    (hpc : s.pc = .sleeping) (hh : s.head = some i) (ha : s.arena i = some nd) :
    wakeB cfg s =
      runLoop cfg (s.alloc + 1) { s with head := nd.next, now := s.now + cfg.delay_ms } := by
  rw [wakeB, if_pos hpc]
  simp only [hh, ha]

theorem wakeB_skip (cfg : DCfg) (s : St) (hpc : s.pc ≠ .sleeping) :
    wakeB cfg s = s := by
  rw [wakeB, if_neg hpc]

theorem driveB_not_sleeping (cfg : DCfg) (f : ℕ) (s : St) (h : s.pc ≠ .sleeping) :
    driveB cfg f s = s := by
  cases f with
  | zero => rfl
  | succ g => rw [driveB, if_neg h]

theorem driveB_sleeping (cfg : DCfg) (f : ℕ) (s : St) (h : s.pc = .sleeping) :
    driveB cfg (f + 1) s = driveB cfg f (wakeB cfg s) := by
  rw [driveB, if_pos h]

theorem runLoop_trace_extend (cfg : DCfg) :
    ∀ (fuel : ℕ) (s : St), ∃ t, (runLoop cfg fuel s).trace = s.trace ++ t := by
  intro fuel
  induction fuel with
  | zero => intro s; exact ⟨[], by simp [runLoop]⟩
  | succ f ih =>
      intro s
      cases hh : s.head with
      | none => exact ⟨[], by rw [runLoop_head_none cfg f s hh]; simp [cleanupSt]⟩
      | some i =>
          cases ha : s.arena i with
          | none => exact ⟨[], by rw [runLoop_dangling cfg f s i hh ha]; simp [cleanupSt]⟩
          | some nd =>
              by_cases ht : nd.throws = true
              · exact ⟨[TraceEv.invoke nd.fn_id s.now],
                  by rw [runLoop_throw cfg f s i nd hh ha ht]⟩
              · rw [Bool.not_eq_true] at ht
                by_cases hb : ((s.requests_made + 1 : ℕ) : ℚ) / cfg.requests_allowed ≥ limit_after_percent
                · exact ⟨[TraceEv.invoke nd.fn_id s.now] ++ [TraceEv.sleep cfg.delay_ms],
                    by rw [runLoop_sleep cfg f s i nd hh ha ht hb]; simp⟩
                · obtain ⟨t, hteq⟩ := ih
                    { s with requests_made := s.requests_made + 1,
                             trace := s.trace ++ [TraceEv.invoke nd.fn_id s.now], head := nd.next }
                  exact ⟨[TraceEv.invoke nd.fn_id s.now] ++ t,
                    by rw [runLoop_continue cfg f s i nd hh ha ht hb, hteq]; simp⟩

theorem traceShape_append (a b : List TraceEv) :
    traceShape (a ++ b) = traceShape a ++ traceShape b :=
  List.map_append _ a b

theorem invokedIds_append (a b : List TraceEv) :
    invokedIds (a ++ b) = invokedIds a ++ invokedIds b :=
  List.filterMap_append a b _

theorem invokedIds_eq_shInvoked (t : List TraceEv) :
    invokedIds t = shInvoked (traceShape t) := by
  induction t with
  | nil => rfl
  | cons e rest ih => cases e <;> simp [invokedIds, traceShape, shInvoked] at * <;> exact ih

theorem shInvoked_append (a b : List ShEv) :
    shInvoked (a ++ b) = shInvoked a ++ shInvoked b :=
  List.filterMap_append a b _

theorem shInvoked_cons_inv (t : ℕ) (l : List ShEv) :
    shInvoked (.inv t :: l) = t :: shInvoked l := rfl

theorem shInvoked_ite_slp (c : Prop) [Decidable c] (d : ℚ) :
    shInvoked (if c then [ShEv.slp d] else []) = [] := by
  split <;> rfl

theorem shInvoked_burstShape (cfg : DCfg) :
    ∀ (ids : List ℕ) (m : ℕ), shInvoked (burstShape cfg m ids) = ids := by
  intro ids
  induction ids with
  | nil => intro m; rfl
  | cons tid rest ih =>
      intro m
      show shInvoked (ShEv.inv tid ::
        ((if ((m + 1 : ℕ) : ℚ) / cfg.requests_allowed ≥ limit_after_percent
          then [ShEv.slp cfg.delay_ms] else []) ++ burstShape cfg (m + 1) rest)) = tid :: rest
      rw [shInvoked_cons_inv, shInvoked_append, shInvoked_ite_slp, List.nil_append, ih (m + 1)]

/-- Core drain lemma for the burst variant: starting the loop on a state
whose `head` chain is exactly `idxs` (all allocated, distinct,
non-throwing) and letting every pending timer fire produces, beyond the
existing trace, exactly the per-iteration shape dictated by the source:
each task invoked in chain order, followed by a `delay_ms` suspension
exactly when the incremented counter reaches the threshold. -/
theorem drain_shape (cfg : DCfg) :
    ∀ (idxs : List ℕ) (s : St) (f1 f2 : ℕ),
      linkedB s.arena s.head idxs = true →
      idxs.Nodup →
      (∀ i ∈ idxs, i < s.alloc) →
      (∀ i ∈ idxs, thrAt s.arena i = false) →
      s.is_running = true →
      idxs.length + 1 ≤ f2 → idxs.length ≤ f1 →
      traceShape (driveB cfg f1 (runLoop cfg f2 s)).trace
        = traceShape s.trace ++ burstShape cfg s.requests_made (idxs.map (idAt s.arena)) := by
  intro idxs
  induction idxs with
  | nil =>
      intro s f1 f2 hl _ _ _ _ hf2 _
      have hh : s.head = none := linkedB_nil_iff.mp hl
      cases f2 with
      | zero => omega
      | succ g =>
          rw [runLoop_head_none cfg g s hh,
              driveB_not_sleeping cfg f1 (cleanupSt s) (by simp [cleanupSt])]
          simp [cleanupSt, burstShape]
  | cons i rest ih =>
      intro s f1 f2 hl hnd hbnd hthr hrun hf2 hf1
      obtain ⟨hh, nd, ha, hrest⟩ := linkedB_cons_iff.mp hl
      have ht : nd.throws = false := by
        have := hthr i (List.mem_cons_self i rest)
        simpa [thrAt, ha] using this
      have hidx : idAt s.arena i = nd.fn_id := by simp [idAt, ha]
      have hlen : (i :: rest).length ≤ s.alloc := nodup_bounded_length hnd hbnd
      cases f2 with
      | zero => omega
      | succ g =>
          by_cases hb : ((s.requests_made + 1 : ℕ) : ℚ) / cfg.requests_allowed ≥ limit_after_percent
          · cases f1 with
            | zero => simp at hf1
            | succ g1 =>
                have e1 := runLoop_sleep cfg g s i nd hh ha ht hb
                have e2 : wakeB cfg
                    { s with requests_made := s.requests_made + 1,
                             trace := (s.trace ++ [TraceEv.invoke nd.fn_id s.now]) ++ [TraceEv.sleep cfg.delay_ms],
                             pc := .sleeping }
                    = runLoop cfg (s.alloc + 1)
                        { s with requests_made := s.requests_made + 1,
                                 trace := (s.trace ++ [TraceEv.invoke nd.fn_id s.now]) ++ [TraceEv.sleep cfg.delay_ms],
                                 pc := .sleeping, head := nd.next,
                                 now := s.now + cfg.delay_ms } := by
                  exact wakeB_run cfg _ i nd rfl hh ha
                have e3 := driveB_sleeping cfg g1
                  { s with requests_made := s.requests_made + 1,
                           trace := (s.trace ++ [TraceEv.invoke nd.fn_id s.now]) ++ [TraceEv.sleep cfg.delay_ms],
                           pc := .sleeping } rfl
                have hrec := ih
                  { s with requests_made := s.requests_made + 1,
                           trace := (s.trace ++ [TraceEv.invoke nd.fn_id s.now]) ++ [TraceEv.sleep cfg.delay_ms],
                           pc := .sleeping, head := nd.next,
                           now := s.now + cfg.delay_ms }
                  g1 (s.alloc + 1)
                  hrest (List.Nodup.of_cons hnd)
                  (fun j hj => hbnd j (List.mem_cons_of_mem i hj))
                  (fun j hj => hthr j (List.mem_cons_of_mem i hj))
                  hrun
                  (by simp only [List.length_cons] at hlen; omega)
                  (by simp only [List.length_cons] at hf1; omega)
                have hb' : limit_after_percent ≤ ((s.requests_made : ℚ) + 1) / cfg.requests_allowed := by
                  rw [ge_iff_le] at hb; push_cast at hb; exact hb
                rw [e1, e3, e2]
                refine hrec.trans ?_
                simp [traceShape_append, traceShape, burstShape, hb', hidx, List.append_assoc]
          · rw [runLoop_continue cfg g s i nd hh ha ht hb]
            have hrec := ih
              { s with requests_made := s.requests_made + 1,
                       trace := s.trace ++ [TraceEv.invoke nd.fn_id s.now],
                       head := nd.next }
              f1 g
              hrest (List.Nodup.of_cons hnd)
              (fun j hj => hbnd j (List.mem_cons_of_mem i hj))
              (fun j hj => hthr j (List.mem_cons_of_mem i hj))
              hrun
              (by simp only [List.length_cons] at hf2; omega)
              (by simp only [List.length_cons] at hf1; omega)
            have hb' : ¬ limit_after_percent ≤ ((s.requests_made : ℚ) + 1) / cfg.requests_allowed := by
              rw [ge_iff_le] at hb; push_cast at hb; exact hb
            refine hrec.trans ?_
            simp [traceShape_append, traceShape, burstShape, hb', hidx, List.append_assoc]

/-- Drain lemma specialized to `fullDrain` on a quiescent state. -/
theorem fullDrain_shape (cfg : DCfg) (s : St) (idxs : List ℕ)
    (hl : linkedB s.arena s.head idxs = true)
    (hnd : idxs.Nodup)
    (hbnd : ∀ i ∈ idxs, i < s.alloc)
    (hthr : ∀ i ∈ idxs, thrAt s.arena i = false) :
    traceShape (fullDrain cfg s).trace
      = traceShape s.trace ++ burstShape cfg s.requests_made (idxs.map (idAt s.arena)) := by
  have hlen : idxs.length ≤ s.alloc := nodup_bounded_length hnd hbnd
  exact drain_shape cfg idxs { s with is_running := true } (s.alloc + 1) (s.alloc + 1)
    hl hnd hbnd hthr rfl (by omega) (by omega)

theorem linkedB_intro {arena : ℕ → Option QNode} {cur : Option ℕ} {l : List ℕ}
    (hseg : linkedSeg arena cur l = true) (hend : segEnd arena cur l = none) :
    linkedB arena cur l = true := by
  simp [linkedB, hseg, hend]

theorem linkedB_seg {arena : ℕ → Option QNode} {cur : Option ℕ} {l : List ℕ}
    (h : linkedB arena cur l = true) : linkedSeg arena cur l = true := by
  simp only [linkedB, Bool.and_eq_true] at h
  exact h.1

theorem linkedB_end {arena : ℕ → Option QNode} {cur : Option ℕ} {l : List ℕ}
    (h : linkedB arena cur l = true) : segEnd arena cur l = none := by
  simp only [linkedB, Bool.and_eq_true, beq_iff_eq] at h
  exact h.2

theorem linkedSeg_cons_intro {arena : ℕ → Option QNode} {cur : Option ℕ} {i : ℕ}
    {rest : List ℕ} {nd : QNode}
    (hcur : cur = some i) (ha : arena i = some nd)
    (hrest : linkedSeg arena nd.next rest = true) :
    linkedSeg arena cur (i :: rest) = true :=
  linkedSeg_cons_iff.mpr ⟨hcur, nd, ha, hrest⟩

theorem linkedSeg_append_left {arena : ℕ → Option QNode} {cur : Option ℕ} {A B : List ℕ}
    (h : linkedSeg arena cur (A ++ B) = true) : linkedSeg arena cur A = true := by
  rw [linkedSeg_append arena A B cur, Bool.and_eq_true] at h
  exact h.1

theorem linkedSeg_append_right {arena : ℕ → Option QNode} {cur : Option ℕ} {A B : List ℕ}
    (h : linkedSeg arena cur (A ++ B) = true) :
    linkedSeg arena (segEnd arena cur A) B = true := by
  rw [linkedSeg_append arena A B cur, Bool.and_eq_true] at h
  exact h.2

theorem linkedSeg_append_intro {arena : ℕ → Option QNode} {cur : Option ℕ} {A B : List ℕ}
    (h1 : linkedSeg arena cur A = true)
    (h2 : linkedSeg arena (segEnd arena cur A) B = true) :
    linkedSeg arena cur (A ++ B) = true := by
  rw [linkedSeg_append arena A B cur, Bool.and_eq_true]
  exact ⟨h1, h2⟩

/-- Appending a fresh node after the chain's last node (the normal-push
splice `tail.next = { fn }`). -/
theorem linkedB_snoc_new {arena : ℕ → Option QNode} {cur : Option ℕ} {C : List ℕ}
    {t : ℕ} {tnd : QNode} (n : ℕ) (tid : ℕ) (thr : Bool)
    (hl : linkedB arena cur C = true)
    (hlast : C.getLast? = some t)
    (ht : arena t = some tnd)
    (hnd : C.Nodup)
    (hfresh : n ∉ C) :
    linkedB (setNode (setNode arena t ⟨tnd.fn_id, tnd.throws, some n⟩) n ⟨tid, thr, none⟩)
      cur (C ++ [n]) = true := by
  obtain ⟨Cinit, rfl⟩ := List.getLast?_eq_some_iff.mp hlast
  have hnt : ¬ t = n := fun h => hfresh (h ▸ List.mem_append_right Cinit (List.mem_cons_self t []))
  have htni : t ∉ Cinit := by
    have := List.nodup_append.mp hnd
    intro hmem
    exact this.2.2 hmem (List.mem_cons_self t [])
  have hagree : ∀ j ∈ Cinit,
      setNode (setNode arena t ⟨tnd.fn_id, tnd.throws, some n⟩) n ⟨tid, thr, none⟩ j = arena j := by
    intro j hj
    have hjn : j ≠ n := fun h => hfresh (h ▸ List.mem_append_left [t] hj)
    have hjt : j ≠ t := fun h => htni (h ▸ hj)
    rw [setNode_ne _ _ _ hjn, setNode_ne _ _ _ hjt]
  have hseg : linkedSeg arena cur (Cinit ++ [t]) = true := linkedB_seg hl
  have hsegI : linkedSeg arena cur Cinit = true := linkedSeg_append_left hseg
  have hsegT : linkedSeg arena (segEnd arena cur Cinit) [t] = true := linkedSeg_append_right hseg
  obtain ⟨hE, tnd2, ht2, _⟩ := linkedSeg_cons_iff.mp hsegT
  have htnd2 : tnd2 = tnd := by rw [ht] at ht2; exact (Option.some.injEq _ _ ▸ ht2).symm ▸ rfl
  set arena' := setNode (setNode arena t ⟨tnd.fn_id, tnd.throws, some n⟩) n ⟨tid, thr, none⟩ with harena'
  have hsegI' : linkedSeg arena' cur Cinit = true := by
    rw [linkedSeg_congr hagree cur]; exact hsegI
  have hendI' : segEnd arena' cur Cinit = segEnd arena cur Cinit := segEnd_congr hagree cur
  have hat' : arena' t = some ⟨tnd.fn_id, tnd.throws, some n⟩ := by
    rw [harena', setNode_ne _ _ _ hnt, setNode_eq]
  have han' : arena' n = some ⟨tid, thr, none⟩ := by rw [harena', setNode_eq]
  have hsegTN : linkedSeg arena' (segEnd arena' cur Cinit) [t, n] = true := by
    refine linkedSeg_cons_intro (by rw [hendI']; exact hE) hat' ?_
    exact linkedSeg_cons_intro rfl han' (linkedSeg_nil _ _)
  have hsegAll : linkedSeg arena' cur ((Cinit ++ [t]) ++ [n]) = true := by
    rw [List.append_assoc]
    exact linkedSeg_append_intro hsegI' hsegTN
  refine linkedB_intro hsegAll ?_
  rw [List.append_assoc]
  rw [segEnd_append_of_seg arena' ([t] ++ [n]) Cinit cur hsegI', hendI']
  rw [show [t] ++ [n] = [t, n] from rfl]
  rw [segEnd_cons_some _ _ hat']
  show segEnd arena' (some n) [n] = none
  rw [segEnd_cons_some _ _ han']
  rfl

/-- Splicing a fresh node right after a mid-chain node (the priority-push
splice `priority_tail.next = { fn, next : priority_tail.next }`). -/
theorem linkedB_splice_after {arena : ℕ → Option QNode} {cur : Option ℕ} {P N : List ℕ}
    {p : ℕ} {pnd : QNode} (n : ℕ) (tid : ℕ) (thr : Bool)
    (hl : linkedB arena cur (P ++ N) = true)
    (hplast : P.getLast? = some p)
    (hp : arena p = some pnd)
    (hnd : (P ++ N).Nodup)
    (hfresh : n ∉ P ++ N) :
    linkedB (setNode (setNode arena p ⟨pnd.fn_id, pnd.throws, some n⟩) n ⟨tid, thr, pnd.next⟩)
      cur (P ++ n :: N) = true := by
  obtain ⟨Pinit, rfl⟩ := List.getLast?_eq_some_iff.mp hplast
  have hpn : ¬ p = n := fun h =>
    hfresh (h ▸ List.mem_append_left N (List.mem_append_right Pinit (List.mem_cons_self p [])))
  have hpni : p ∉ Pinit := by
    have h1 : (Pinit ++ [p]).Nodup := (List.nodup_append.mp hnd).1
    intro hmem
    exact (List.nodup_append.mp h1).2.2 hmem (List.mem_cons_self p [])
  have hpN : p ∉ N := by
    have := List.nodup_append.mp hnd
    exact fun hmem => this.2.2 (List.mem_append_right Pinit (List.mem_cons_self p [])) hmem
  set arena' := setNode (setNode arena p ⟨pnd.fn_id, pnd.throws, some n⟩) n ⟨tid, thr, pnd.next⟩
    with harena'
  have hagree : ∀ j, j ≠ n → j ≠ p → arena' j = arena j := by
    intro j hjn hjp
    rw [harena', setNode_ne _ _ _ hjn, setNode_ne _ _ _ hjp]
  have hagreeI : ∀ j ∈ Pinit, arena' j = arena j := by
    intro j hj
    exact hagree j (fun h => hfresh (h ▸ List.mem_append_left N (List.mem_append_left [p] hj)))
      (fun h => hpni (h ▸ hj))
  have hagreeN : ∀ j ∈ N, arena' j = arena j := by
    intro j hj
    exact hagree j (fun h => hfresh (h ▸ List.mem_append_right _ hj))
      (fun h => hpN (h ▸ hj))
  have hap' : arena' p = some ⟨pnd.fn_id, pnd.throws, some n⟩ := by
    rw [harena', setNode_ne _ _ _ hpn, setNode_eq]
  have han' : arena' n = some ⟨tid, thr, pnd.next⟩ := by rw [harena', setNode_eq]
  have hseg : linkedSeg arena cur ((Pinit ++ [p]) ++ N) = true := linkedB_seg hl
  have hsegP : linkedSeg arena cur (Pinit ++ [p]) = true := linkedSeg_append_left hseg
  have hsegI : linkedSeg arena cur Pinit = true := linkedSeg_append_left hsegP
  have hsegTp : linkedSeg arena (segEnd arena cur Pinit) [p] = true := linkedSeg_append_right hsegP
  obtain ⟨hE, pnd2, hp2, _⟩ := linkedSeg_cons_iff.mp hsegTp
  have hendP : segEnd arena cur (Pinit ++ [p]) = pnd.next := by
    rw [segEnd_append_of_seg arena [p] Pinit cur hsegI, segEnd_cons_some _ _ ]
    · rfl
    · exact hp
  have hsegN : linkedSeg arena pnd.next N = true := by
    have := linkedSeg_append_right hseg
    rwa [hendP] at this
  have hendN : segEnd arena pnd.next N = none := by
    have := linkedB_end hl
    rwa [segEnd_append_of_seg arena N (Pinit ++ [p]) cur hsegP, hendP] at this
  have hsegI' : linkedSeg arena' cur Pinit = true := by
    rw [linkedSeg_congr hagreeI cur]; exact hsegI
  have hendI' : segEnd arena' cur Pinit = segEnd arena cur Pinit := segEnd_congr hagreeI cur
  have hsegN' : linkedSeg arena' pnd.next N = true := by
    rw [linkedSeg_congr hagreeN pnd.next]; exact hsegN
  have hsegPN : linkedSeg arena' (segEnd arena' cur Pinit) ([p, n] ++ N) = true := by
    refine linkedSeg_cons_intro (by rw [hendI']; exact hE) hap' ?_
    exact linkedSeg_cons_intro rfl han' hsegN'
  have hsegAll : linkedSeg arena' cur (Pinit ++ ([p, n] ++ N)) = true :=
    linkedSeg_append_intro hsegI' hsegPN
  have hshape : (Pinit ++ [p]) ++ n :: N = Pinit ++ ([p, n] ++ N) := by simp
  rw [hshape]
  refine linkedB_intro hsegAll ?_
  rw [segEnd_append_of_seg arena' ([p, n] ++ N) Pinit cur hsegI', hendI']
  rw [show ([p, n] ++ N : List ℕ) = p :: n :: N from rfl]
  rw [segEnd_cons_some _ _ hap']
  show segEnd arena' (some n) (n :: N) = none
  rw [segEnd_cons_some _ _ han']
  rw [segEnd_congr hagreeN pnd.next]
  exact hendN

/-- Inserting a fresh node at the front (the priority-push
`head = priority_tail = { fn, next: head }`). -/
theorem linkedB_front {arena : ℕ → Option QNode} {cur : Option ℕ} {C : List ℕ}
    (n : ℕ) (tid : ℕ) (thr : Bool)
    (hl : linkedB arena cur C = true)
    (hfresh : n ∉ C) :
    linkedB (setNode arena n ⟨tid, thr, cur⟩) (some n) (n :: C) = true := by
  have hagree : ∀ j ∈ C, setNode arena n ⟨tid, thr, cur⟩ j = arena j := by
    intro j hj
    exact setNode_ne _ _ _ (fun h => hfresh (h ▸ hj))
  refine linkedB_cons_iff.mpr ⟨rfl, ⟨tid, thr, cur⟩, setNode_eq _ _ _, ?_⟩
  show linkedB (setNode arena n ⟨tid, thr, cur⟩) cur C = true
  refine linkedB_intro ?_ ?_
  · rw [linkedSeg_congr hagree cur]; exact linkedB_seg hl
  · rw [segEnd_congr hagree cur]; exact linkedB_end hl

/-- A fresh single-node chain (push into an empty queue). -/
theorem linkedB_single (arena : ℕ → Option QNode) (n : ℕ) (tid : ℕ) (thr : Bool) :
    linkedB (setNode arena n ⟨tid, thr, none⟩) (some n) [n] = true := by
  refine linkedB_cons_iff.mpr ⟨rfl, ⟨tid, thr, none⟩, setNode_eq _ _ _, ?_⟩
  exact linkedB_nil_iff.mpr rfl

theorem pushQ_pri_empty (s : St) (tid : ℕ) (thr : Bool) (hp : s.head = none) :
    pushQ s tid thr true =
      { s with arena := setNode s.arena s.alloc ⟨tid, thr, none⟩, alloc := s.alloc + 1,
               head := some s.alloc, tail := some s.alloc, priority_tail := some s.alloc } := by
  simp [pushQ, hp]

theorem pushQ_pri_splice (s : St) (tid : ℕ) (thr : Bool) (p : ℕ) (pnd : QNode)
    (hh : ¬ s.head = none) (hpt : s.priority_tail = some p) (ha : s.arena p = some pnd) :
    pushQ s tid thr true =
      { s with arena := setNode (setNode s.arena p ⟨pnd.fn_id, pnd.throws, some s.alloc⟩)
                          s.alloc ⟨tid, thr, pnd.next⟩,
               alloc := s.alloc + 1, priority_tail := some s.alloc } := by
  simp [pushQ, hh, hpt, ha]

theorem pushQ_pri_front (s : St) (tid : ℕ) (thr : Bool)
    (hh : ¬ s.head = none) (hpt : s.priority_tail = none) :
    pushQ s tid thr true =
      { s with arena := setNode s.arena s.alloc ⟨tid, thr, s.head⟩, alloc := s.alloc + 1,
               head := some s.alloc, priority_tail := some s.alloc } := by
  simp [pushQ, hh, hpt]

theorem pushQ_norm_empty (s : St) (tid : ℕ) (thr : Bool) (hp : s.head = none) :
    pushQ s tid thr false =
      { s with arena := setNode s.arena s.alloc ⟨tid, thr, none⟩, alloc := s.alloc + 1,
               head := some s.alloc, tail := some s.alloc } := by
  simp [pushQ, hp]

theorem pushQ_norm_append (s : St) (tid : ℕ) (thr : Bool) (t : ℕ) (tnd : QNode)
    (hh : ¬ s.head = none) (htl : s.tail = some t) (ha : s.arena t = some tnd) :
    pushQ s tid thr false =
      { s with arena := setNode (setNode s.arena t ⟨tnd.fn_id, tnd.throws, some s.alloc⟩)
                          s.alloc ⟨tid, thr, none⟩,
               alloc := s.alloc + 1, tail := some s.alloc } := by
  simp [pushQ, hh, htl, ha]

/-- Queue well-formedness after a push history whose first push into the
empty queue was a normal one: the chain from `head` is the priority
segment `pidx` followed by the non-empty normal segment `nidx`;
`priority_tail` points at the last priority node, `tail` at the last
normal node (which is also the chain's last node). -/
structure WfQ (s : St) (pidx nidx : List ℕ) : Prop where
  linked : linkedB s.arena s.head (pidx ++ nidx) = true
  nodup : (pidx ++ nidx).Nodup
  bnd : ∀ i ∈ pidx ++ nidx, i < s.alloc
  pt : s.priority_tail = pidx.getLast?
  tl : s.tail = nidx.getLast?
  nne : nidx ≠ []
  nthr : ∀ i ∈ pidx ++ nidx, thrAt s.arena i = false

theorem WfQ.head_ne_none {s : St} {pidx nidx : List ℕ} (w : WfQ s pidx nidx) :
    ¬ s.head = none := by
  intro hcontra
  cases hC : pidx ++ nidx with
  | nil => exact w.nne (List.append_eq_nil.mp hC).2
  | cons a l =>
      have := w.linked
      rw [hC] at this
      obtain ⟨hcur, _⟩ := linkedB_cons_iff.mp this
      rw [hcontra] at hcur
      exact Option.noConfusion hcur

theorem idAt_setNode_ne (arena : ℕ → Option QNode) (n : ℕ) (nd : QNode) {j : ℕ} (hj : j ≠ n) :
    idAt (setNode arena n nd) j = idAt arena j := by
  simp [idAt, setNode, hj]

theorem idAt_setNode_eq (arena : ℕ → Option QNode) (n : ℕ) (nd : QNode) :
    idAt (setNode arena n nd) n = nd.fn_id := by
  simp [idAt, setNode]

theorem thrAt_setNode_ne (arena : ℕ → Option QNode) (n : ℕ) (nd : QNode) {j : ℕ} (hj : j ≠ n) :
    thrAt (setNode arena n nd) j = thrAt arena j := by
  simp [thrAt, setNode, hj]

theorem thrAt_setNode_eq (arena : ℕ → Option QNode) (n : ℕ) (nd : QNode) :
    thrAt (setNode arena n nd) n = nd.throws := by
  simp [thrAt, setNode]

theorem idAt_splice (arena : ℕ → Option QNode) {x : ℕ} {xd : QNode} (nn : Option ℕ)
    (n : ℕ) (newnd : QNode) (hx : arena x = some xd) {j : ℕ} (hj : j ≠ n) :
    idAt (setNode (setNode arena x ⟨xd.fn_id, xd.throws, nn⟩) n newnd) j = idAt arena j := by
  by_cases hjx : j = x
  · subst hjx
    rw [idAt_setNode_ne _ _ _ hj, idAt_setNode_eq]
    simp [idAt, hx]
  · rw [idAt_setNode_ne _ _ _ hj, idAt_setNode_ne _ _ _ hjx]

theorem thrAt_splice (arena : ℕ → Option QNode) {x : ℕ} {xd : QNode} (nn : Option ℕ)
    (n : ℕ) (newnd : QNode) (hx : arena x = some xd) {j : ℕ} (hj : j ≠ n) :
    thrAt (setNode (setNode arena x ⟨xd.fn_id, xd.throws, nn⟩) n newnd) j = thrAt arena j := by
  by_cases hjx : j = x
  · subst hjx
    rw [thrAt_setNode_ne _ _ _ hj, thrAt_setNode_eq]
    simp [thrAt, hx]
  · rw [thrAt_setNode_ne _ _ _ hj, thrAt_setNode_ne _ _ _ hjx]

theorem linkedB_presence {arena : ℕ → Option QNode} {cur : Option ℕ} {l : List ℕ}
    (h : linkedB arena cur l = true) : ∀ i ∈ l, ∃ nd, arena i = some nd :=
  linkedSeg_presence (linkedB_seg h)

/-- A normal push on a well-formed queue appends the fresh node to the
normal segment; stored ids below the fresh index are unchanged. -/
theorem pushQ_wf_normal {s : St} {pidx nidx : List ℕ} (tid : ℕ) (w : WfQ s pidx nidx) :
    WfQ (pushQ s tid false false) pidx (nidx ++ [s.alloc]) ∧
    (∀ j, j ≠ s.alloc → idAt (pushQ s tid false false).arena j = idAt s.arena j) ∧
    idAt (pushQ s tid false false).arena s.alloc = tid ∧
    (pushQ s tid false false).alloc = s.alloc + 1 := by
  have hh := w.head_ne_none
  obtain ⟨t, hnl⟩ : ∃ t, nidx.getLast? = some t := by
    cases hx : nidx.getLast? with
    | none => exact absurd (List.getLast?_eq_none_iff.mp hx) w.nne
    | some t => exact ⟨t, rfl⟩
  have htl : s.tail = some t := w.tl.trans hnl
  have htc : t ∈ pidx ++ nidx :=
    List.mem_append_right pidx (List.mem_of_mem_getLast? hnl)
  obtain ⟨tnd, ha⟩ := linkedB_presence w.linked t htc
  have hfresh : s.alloc ∉ pidx ++ nidx := fun hmem => lt_irrefl _ (w.bnd _ hmem)
  rw [pushQ_norm_append s tid false t tnd hh htl ha]
  have hglast : (pidx ++ nidx).getLast? = some t := by
    rw [List.getLast?_append_of_ne_nil pidx w.nne]; exact hnl
  refine ⟨⟨?_, ?_, ?_, ?_, ?_, ?_, ?_⟩, ?_, ?_, ?_⟩
  · show linkedB _ s.head (pidx ++ (nidx ++ [s.alloc])) = true
    rw [← List.append_assoc]
    exact linkedB_snoc_new s.alloc tid false w.linked hglast ha w.nodup hfresh
  · show (pidx ++ (nidx ++ [s.alloc])).Nodup
    rw [← List.append_assoc]
    rw [List.nodup_append]
    exact ⟨w.nodup, List.nodup_singleton _,
      fun a ha1 ha2 => hfresh ((List.mem_singleton.mp ha2) ▸ ha1)⟩
  · intro i hi
    show i < s.alloc + 1
    rw [← List.append_assoc] at hi
    rcases List.mem_append.mp hi with h1 | h2
    · exact Nat.lt_succ_of_lt (w.bnd i h1)
    · rw [List.mem_singleton.mp h2]; omega
  · exact w.pt
  · show some s.alloc = (nidx ++ [s.alloc]).getLast?
    rw [List.getLast?_concat]
  · simp
  · intro i hi
    rw [← List.append_assoc] at hi
    rcases List.mem_append.mp hi with h1 | h2
    · have hne : i ≠ s.alloc := fun h => hfresh (h ▸ h1)
      show thrAt _ i = false
      rw [thrAt_splice s.arena (some s.alloc) s.alloc ⟨tid, false, none⟩ ha hne]
      exact w.nthr i h1
    · rw [List.mem_singleton.mp h2]
      show thrAt _ s.alloc = false
      rw [thrAt_setNode_eq]
  · intro j hj
    exact idAt_splice s.arena (some s.alloc) s.alloc ⟨tid, false, none⟩ ha hj
  · exact idAt_setNode_eq _ _ _
  · rfl

/-- A priority push on a well-formed queue appends the fresh node to the
priority segment (front insert when the segment is empty, splice after
`priority_tail` otherwise); stored ids below the fresh index are
unchanged. -/
theorem pushQ_wf_pri {s : St} {pidx nidx : List ℕ} (tid : ℕ) (w : WfQ s pidx nidx) :
    WfQ (pushQ s tid false true) (pidx ++ [s.alloc]) nidx ∧
    (∀ j, j ≠ s.alloc → idAt (pushQ s tid false true).arena j = idAt s.arena j) ∧
    idAt (pushQ s tid false true).arena s.alloc = tid ∧
    (pushQ s tid false true).alloc = s.alloc + 1 := by
  have hh := w.head_ne_none
  have hfresh : s.alloc ∉ pidx ++ nidx := fun hmem => lt_irrefl _ (w.bnd _ hmem)
  cases hpx : pidx.getLast? with
  | none =>
      have hpe : pidx = [] := List.getLast?_eq_none_iff.mp hpx
      subst hpe
      have hpt : s.priority_tail = none := w.pt
      rw [pushQ_pri_front s tid false hh hpt]
      refine ⟨⟨?_, ?_, ?_, ?_, ?_, w.nne, ?_⟩, ?_, ?_, ?_⟩
      · show linkedB _ (some s.alloc) (([] ++ [s.alloc]) ++ nidx) = true
        have := linkedB_front s.alloc tid false w.linked (by simpa using hfresh)
        simpa using this
      · show (([] ++ [s.alloc]) ++ nidx).Nodup
        simp only [List.nil_append, List.cons_append]
        rw [List.nodup_cons]
        exact ⟨by simpa using hfresh, by simpa using w.nodup⟩
      · intro i hi
        show i < s.alloc + 1
        simp only [List.nil_append, List.cons_append, List.mem_cons] at hi
        rcases hi with h1 | h2
        · omega
        · have := w.bnd i (by simpa using h2); omega
      · show some s.alloc = ([] ++ [s.alloc] : List ℕ).getLast?
        simp
      · exact w.tl
      · intro i hi
        simp only [List.nil_append, List.cons_append, List.mem_cons] at hi
        rcases hi with h1 | h2
        · subst h1
          show thrAt _ s.alloc = false
          rw [thrAt_setNode_eq]
        · have hne : i ≠ s.alloc := fun h => hfresh (h ▸ (by simpa using h2))
          show thrAt _ i = false
          rw [thrAt_setNode_ne _ _ _ hne]
          exact w.nthr i (by simpa using h2)
      · intro j hj
        exact idAt_setNode_ne _ _ _ hj
      · exact idAt_setNode_eq _ _ _
      · rfl
  | some p =>
      have hpt : s.priority_tail = some p := w.pt.trans hpx
      have hpc : p ∈ pidx ++ nidx :=
        List.mem_append_left nidx (List.mem_of_mem_getLast? hpx)
      obtain ⟨pnd, ha⟩ := linkedB_presence w.linked p hpc
      rw [pushQ_pri_splice s tid false p pnd hh hpt ha]
      refine ⟨⟨?_, ?_, ?_, ?_, ?_, w.nne, ?_⟩, ?_, ?_, ?_⟩
      · show linkedB _ s.head ((pidx ++ [s.alloc]) ++ nidx) = true
        have := linkedB_splice_after s.alloc tid false w.linked hpx ha w.nodup hfresh
        have hshape : (pidx ++ [s.alloc]) ++ nidx = pidx ++ s.alloc :: nidx := by simp
        rw [hshape]
        exact this
      · show ((pidx ++ [s.alloc]) ++ nidx).Nodup
        have hshape : (pidx ++ [s.alloc]) ++ nidx = pidx ++ s.alloc :: nidx := by simp
        rw [hshape]
        rw [List.nodup_append]
        obtain ⟨hnp, hnn, hdisj⟩ := List.nodup_append.mp w.nodup
        refine ⟨hnp, ?_, ?_⟩
        · rw [List.nodup_cons]
          exact ⟨fun hmem => hfresh (List.mem_append_right pidx hmem), hnn⟩
        · intro a ha1 ha2
          rcases List.mem_cons.mp ha2 with h1 | h2
          · exact hfresh (h1 ▸ List.mem_append_left nidx ha1)
          · exact hdisj ha1 h2
      · intro i hi
        show i < s.alloc + 1
        rcases List.mem_append.mp hi with h1 | h2
        · rcases List.mem_append.mp h1 with h3 | h4
          · have := w.bnd i (List.mem_append_left nidx h3); omega
          · rw [List.mem_singleton.mp h4]; omega
        · have := w.bnd i (List.mem_append_right pidx h2); omega
      · show some s.alloc = (pidx ++ [s.alloc]).getLast?
        rw [List.getLast?_concat]
      · exact w.tl
      · intro i hi
        by_cases hne : i = s.alloc
        · subst hne
          show thrAt _ s.alloc = false
          rw [thrAt_setNode_eq]
        · show thrAt _ i = false
          rw [thrAt_splice s.arena (some s.alloc) s.alloc ⟨tid, false, pnd.next⟩ ha hne]
          refine w.nthr i ?_
          rcases List.mem_append.mp hi with h1 | h2
          · rcases List.mem_append.mp h1 with h3 | h4
            · exact List.mem_append_left nidx h3
            · exact absurd (List.mem_singleton.mp h4) hne
          · exact List.mem_append_right pidx h2
      · intro j hj
        exact idAt_splice s.arena (some s.alloc) s.alloc ⟨tid, false, pnd.next⟩ ha hj
      · exact idAt_setNode_eq _ _ _
      · rfl

theorem applyPushes_trace (seq : List (ℕ × Bool)) :
    ∀ s : St, (applyPushes seq s).trace = s.trace ∧
      (applyPushes seq s).requests_made = s.requests_made ∧
      (applyPushes seq s).is_running = s.is_running := by
  induction seq with
  | nil => intro s; exact ⟨rfl, rfl, rfl⟩
  | cons pr rest ih =>
      intro s
      obtain ⟨h1, h2, h3, h4, h5, _⟩ := pushQ_fields s pr.1 false pr.2
      have hstep : applyPushes (pr :: rest) s = applyPushes rest (pushQ s pr.1 false pr.2) := rfl
      rw [hstep]
      obtain ⟨g1, g2, g3⟩ := ih (pushQ s pr.1 false pr.2)
      exact ⟨g1.trans h4, g2.trans h3, g3.trans h1⟩

/-- The first normal push into a freshly constructed limiter produces a
well-formed single-node queue. -/
theorem wfq_first (tid : ℕ) :
    WfQ (pushQ St.init tid false false) [] [0] ∧
    idAt (pushQ St.init tid false false).arena 0 = tid := by
  rw [pushQ_norm_empty St.init tid false rfl]
  refine ⟨⟨?_, ?_, ?_, ?_, ?_, ?_, ?_⟩, ?_⟩
  · show linkedB (setNode St.init.arena 0 ⟨tid, false, none⟩) (some 0) ([] ++ [0]) = true
    simpa using linkedB_single St.init.arena 0 tid false
  · simp
  · intro i hi
    simp only [List.nil_append, List.mem_singleton] at hi
    subst hi
    show (0 : ℕ) < 0 + 1
    omega
  · rfl
  · rfl
  · simp
  · intro i hi
    simp only [List.nil_append, List.mem_singleton] at hi
    subst hi
    show thrAt (setNode St.init.arena 0 ⟨tid, false, none⟩) 0 = false
    rw [thrAt_setNode_eq]
  · exact idAt_setNode_eq _ _ _

/-- Any sequence of push splices on a well-formed queue keeps it
well-formed, appending priority ids to the priority segment and normal ids
to the normal segment, both in push order. -/
theorem applyPushes_wf :
    ∀ (seq : List (ℕ × Bool)) (s : St) (pidx nidx : List ℕ), WfQ s pidx nidx →
      ∃ pidx' nidx',
        WfQ (applyPushes seq s) pidx' nidx' ∧
        pidx'.map (idAt (applyPushes seq s).arena) = pidx.map (idAt s.arena) ++ prioIds seq ∧
        nidx'.map (idAt (applyPushes seq s).arena) = nidx.map (idAt s.arena) ++ normIds seq := by
  intro seq
  induction seq with
  | nil =>
      intro s pidx nidx w
      exact ⟨pidx, nidx, w, by simp [applyPushes, prioIds], by simp [applyPushes, normIds]⟩
  | cons pr rest ih =>
      intro s pidx nidx w
      obtain ⟨tid, b⟩ := pr
      have hbnd_p : ∀ a ∈ pidx, a ≠ s.alloc :=
        fun a hmem h => lt_irrefl _ (h ▸ w.bnd a (List.mem_append_left nidx hmem))
      have hbnd_n : ∀ a ∈ nidx, a ≠ s.alloc :=
        fun a hmem h => lt_irrefl _ (h ▸ w.bnd a (List.mem_append_right pidx hmem))
      cases b with
      | false =>
          obtain ⟨wf', hpres, hnew, _⟩ := pushQ_wf_normal tid w
          have hstep : applyPushes ((tid, false) :: rest) s
              = applyPushes rest (pushQ s tid false false) := rfl
          obtain ⟨pidx', nidx', w', hp', hn'⟩ :=
            ih (pushQ s tid false false) pidx (nidx ++ [s.alloc]) wf'
          rw [hstep]
          refine ⟨pidx', nidx', w', ?_, ?_⟩
          · rw [hp']
            have hmap : pidx.map (idAt (pushQ s tid false false).arena)
                = pidx.map (idAt s.arena) :=
              List.map_congr_left (fun a ha => hpres a (hbnd_p a ha))
            rw [hmap]
            have : prioIds ((tid, false) :: rest) = prioIds rest := by simp [prioIds]
            rw [this]
          · rw [hn', List.map_append]
            have hmap : nidx.map (idAt (pushQ s tid false false).arena)
                = nidx.map (idAt s.arena) :=
              List.map_congr_left (fun a ha => hpres a (hbnd_n a ha))
            have hone : ([s.alloc] : List ℕ).map (idAt (pushQ s tid false false).arena)
                = [tid] := by simp [hnew]
            rw [hmap, hone]
            have : normIds ((tid, false) :: rest) = tid :: normIds rest := by simp [normIds]
            rw [this, List.append_assoc]
            rfl
      | true =>
          obtain ⟨wf', hpres, hnew, _⟩ := pushQ_wf_pri tid w
          have hstep : applyPushes ((tid, true) :: rest) s
              = applyPushes rest (pushQ s tid false true) := rfl
          obtain ⟨pidx', nidx', w', hp', hn'⟩ :=
            ih (pushQ s tid false true) (pidx ++ [s.alloc]) nidx wf'
          rw [hstep]
          refine ⟨pidx', nidx', w', ?_, ?_⟩
          · rw [hp', List.map_append]
            have hmap : pidx.map (idAt (pushQ s tid false true).arena)
                = pidx.map (idAt s.arena) :=
              List.map_congr_left (fun a ha => hpres a (hbnd_p a ha))
            have hone : ([s.alloc] : List ℕ).map (idAt (pushQ s tid false true).arena)
                = [tid] := by simp [hnew]
            rw [hmap, hone]
            have : prioIds ((tid, true) :: rest) = tid :: prioIds rest := by simp [prioIds]
            rw [this, List.append_assoc]
            rfl
          · rw [hn']
            have hmap : nidx.map (idAt (pushQ s tid false true).arena)
                = nidx.map (idAt s.arena) :=
              List.map_congr_left (fun a ha => hpres a (hbnd_n a ha))
            rw [hmap]
            have : normIds ((tid, true) :: rest) = normIds rest := by simp [normIds]
            rw [this]

theorem prioIds_all_normal (ids : List ℕ) :
    prioIds (ids.map (fun i => (i, false))) = [] := by
  induction ids with
  | nil => rfl
  | cons a l ih => simp [prioIds] at ih ⊢

theorem normIds_all_normal (ids : List ℕ) :
    normIds (ids.map (fun i => (i, false))) = ids := by
  induction ids with
  | nil => rfl
  | cons a l ih => simpa [normIds] using ih

/-- `RateLimit('2 per second')` of the burst variant:
`requests_allowed = 2`, `delay_ms = 1000 / 2 / (1 - 0.5) = 1000`. -/
def cfgTwo : DCfg := ⟨2, 1000⟩

/-- `RateLimit('60 per minute')` of the burst variant (the configuration
the repository actually constructs): `requests_allowed = 60`,
`delay_ms = 60000 / 60 / (1 - 0.5) = 2000`. -/
def cfgSixty : DCfg := ⟨60, 2000⟩

/-- C1 (amended): for every push sequence whose first push into the empty
queue is a normal task and with no drain pops interleaved, the chain from
`head` is exactly the priority tasks in insertion order followed by the
normal tasks in insertion order, and a full drain then invokes the tasks
in exactly that order. -/
theorem c1_push_order_first_normal (cfg : DCfg) (tid0 : ℕ) (rest : List (ℕ × Bool)) :
    chainTaskIds (applyPushes ((tid0, false) :: rest) St.init)
      = prioIds ((tid0, false) :: rest) ++ normIds ((tid0, false) :: rest) ∧
    invokedIds (fullDrain cfg (applyPushes ((tid0, false) :: rest) St.init)).trace
      = prioIds ((tid0, false) :: rest) ++ normIds ((tid0, false) :: rest) := by
  obtain ⟨w1, hid0⟩ := wfq_first tid0
  obtain ⟨pidx', nidx', w', hp', hn'⟩ :=
    applyPushes_wf rest (pushQ St.init tid0 false false) [] [0] w1
  have hstep : applyPushes ((tid0, false) :: rest) St.init
      = applyPushes rest (pushQ St.init tid0 false false) := rfl
  set S := applyPushes rest (pushQ St.init tid0 false false) with hS
  have hpm : pidx'.map (idAt S.arena) = prioIds rest := by simpa using hp'
  have hnm : nidx'.map (idAt S.arena) = tid0 :: normIds rest := by
    rw [hn']
    simp [hid0]
  have hprio : prioIds ((tid0, false) :: rest) = prioIds rest := by simp [prioIds]
  have hnorm : normIds ((tid0, false) :: rest) = tid0 :: normIds rest := by simp [normIds]
  have hlen : (pidx' ++ nidx').length ≤ S.alloc := nodup_bounded_length w'.nodup w'.bnd
  have hchain : chainIds S = pidx' ++ nidx' :=
    chainFrom_of_linkedB _ _ _ w'.linked (by omega)
  have htr : S.trace = [] := by
    have h0 := (applyPushes_trace rest (pushQ St.init tid0 false false)).1
    have h1 := (pushQ_fields St.init tid0 false false).2.2.2.1
    rw [hS, h0, h1]
    rfl
  constructor
  · rw [hstep, chainTaskIds, hchain, List.map_append, hpm, hnm, hprio, hnorm]
  · rw [hstep]
    have hshape := fullDrain_shape cfg S (pidx' ++ nidx') w'.linked w'.nodup w'.bnd w'.nthr
    calc invokedIds (fullDrain cfg S).trace
        = shInvoked (traceShape (fullDrain cfg S).trace) := invokedIds_eq_shInvoked _
      _ = shInvoked (traceShape S.trace
            ++ burstShape cfg S.requests_made ((pidx' ++ nidx').map (idAt S.arena))) := by
          rw [hshape]
      _ = shInvoked (burstShape cfg S.requests_made (prioIds rest ++ (tid0 :: normIds rest))) := by
          rw [htr, List.map_append, hpm, hnm]
          rfl
      _ = prioIds rest ++ (tid0 :: normIds rest) := shInvoked_burstShape cfg _ _
      _ = prioIds ((tid0, false) :: rest) ++ normIds ((tid0, false) :: rest) := by
          rw [hprio, hnorm]

/-- C1 counterexample: on `RateLimit('2 per second')` (burst variant),
pushing priority task 1, then priority task 2, then normal task 3 — all
through the public `push`, exactly as the source would execute them — and
letting both pending timers fire invokes tasks 1 and 3 only.  Priority
task 2 is severed from the chain by the normal push (branch 1 left `tail`
aliasing node 1, whose `next` the normal append overwrites), so the queue
does not preserve the claimed total order [priority tasks in insertion
order] ++ [normal tasks in insertion order] (which would require 2 to run
between 1 and 3), and task 2 never runs at all. -/
theorem c1_counterexample :
    invokedIds (runEvents cfgTwo
      [.push 1 false true, .push 2 false true, .push 3 false false, .wake, .wake]
      St.init).trace = [1, 3] ∧
    chainTaskIds (runEvents cfgTwo
      [.push 1 false true, .push 2 false true, .push 3 false false] St.init) = [1, 3] := by
  constructor
  · simp only [runEvents, List.foldl, step]
    norm_num [pushFull, pushQ, wakeB, runLoop, driveB, cleanupSt, setNode,
      St.init, cfgTwo, invokedIds, limit_after_percent, Option.some_ne_none,
      List.filterMap_cons, List.filterMap_nil]
  · simp only [runEvents, List.foldl, step]
    norm_num [pushFull, pushQ, wakeB, runLoop, driveB, cleanupSt, setNode,
      St.init, cfgTwo, chainTaskIds, chainIds, chainFrom, idAt, limit_after_percent,
      Option.some_ne_none]

/-- C2 (amended): per fresh window, the `k`-th popped task is invoked with
`requests_made = k` and is followed by a suspension of the stored
`delay_ms = interval_ms / count / (1 - limit_after_percent)` exactly when
`k / requests_allowed >= limit_after_percent`; hence the unthrottled
burst consists of the tasks with `k / requests_allowed <
limit_after_percent`, which is one task fewer than
`floor(requests_allowed * limit_after_percent)` whenever
`requests_allowed * limit_after_percent` is an integer. -/
theorem c2_burst_schedule (cfg : DCfg) (ids : List ℕ) (c : JSNum) (u : String) (ms : ℚ)
    (h : intervalMsOf u = some ms) :
    traceShape (fullDrain cfg (applyPushes (ids.map (fun i => (i, false))) St.init)).trace
      = burstShape cfg 0 ids ∧
    rateLimitCtor2 c u
      = .ok ⟨jsDiv (jsDiv (.fin ms) c) (.fin (1 - limit_after_percent)), c, ms⟩ := by
  constructor
  · cases ids with
    | nil =>
        show traceShape (fullDrain cfg St.init).trace = burstShape cfg 0 []
        rfl
    | cons i0 rest' =>
        obtain ⟨w1, hid0⟩ := wfq_first i0
        obtain ⟨pidx', nidx', w', hp', hn'⟩ :=
          applyPushes_wf (rest'.map (fun i => (i, false)))
            (pushQ St.init i0 false false) [] [0] w1
        have hstep : applyPushes ((i0 :: rest').map (fun i => (i, false))) St.init
            = applyPushes (rest'.map (fun i => (i, false)))
                (pushQ St.init i0 false false) := rfl
        set S := applyPushes (rest'.map (fun i => (i, false)))
          (pushQ St.init i0 false false) with hS
        have hpm : pidx'.map (idAt S.arena) = [] := by
          rw [hp', prioIds_all_normal]
          simp
        have hnm : nidx'.map (idAt S.arena) = i0 :: rest' := by
          rw [hn', normIds_all_normal]
          simp [hid0]
        have htr : S.trace = [] := by
          have h0 := (applyPushes_trace (rest'.map (fun i => (i, false)))
            (pushQ St.init i0 false false)).1
          have h1 := (pushQ_fields St.init i0 false false).2.2.2.1
          rw [hS, h0, h1]
          rfl
        have hrm : S.requests_made = 0 := by
          have h0 := (applyPushes_trace (rest'.map (fun i => (i, false)))
            (pushQ St.init i0 false false)).2.1
          have h1 := (pushQ_fields St.init i0 false false).2.2.1
          rw [hS, h0, h1]
          rfl
        have hshape := fullDrain_shape cfg S (pidx' ++ nidx') w'.linked w'.nodup w'.bnd w'.nthr
        rw [hstep, hshape, htr, hrm, List.map_append, hpm, hnm]
        rfl
  · simp [rateLimitCtor2, h]

/-- C2 witness: concrete instance of the amended burst schedule for a
`(2, 'per second')` limiter draining two tasks. -/
theorem c2_burst_schedule_witness :
    (traceShape (fullDrain ⟨2, 1000⟩
        (applyPushes ([5, 6].map (fun i => (i, false))) St.init)).trace
      = burstShape ⟨2, 1000⟩ 0 [5, 6]) ∧
    rateLimitCtor2 (.fin 2) "per second"
      = .ok ⟨jsDiv (jsDiv (.fin 1000) (.fin 2)) (.fin (1 - limit_after_percent)), .fin 2, 1000⟩ :=
  c2_burst_schedule ⟨2, 1000⟩ [5, 6] (.fin 2) "per second" 1000 rfl

/-- C2 counterexample: with `requests_allowed = 2` (a `2 per second`
limiter), `floor(requests_allowed * limit_after_percent) = 1`, so the
claim states the first popped task of a fresh window is invoked with no
inter-task suspension; but the drain of a single task shows it is followed
by a suspension of 1000 ms, because the threshold test `1 / 2 >= 0.5`
already fires on the first task (the test is `>=`, so the claimed
`floor(requests_allowed * limit_after_percent)`-task unthrottled burst is
off by one whenever `requests_allowed * limit_after_percent` is an
integer). -/
theorem c2_counterexample :
    Nat.floor ((2 : ℚ) * limit_after_percent) = 1 ∧
    traceShape (fullDrain cfgTwo (applyPushes [(1, false)] St.init)).trace
      = [ShEv.inv 1, ShEv.slp 1000] := by
  constructor
  · norm_num [limit_after_percent]
  · simp only [applyPushes, List.foldl, fullDrain]
    norm_num [pushQ, wakeB, runLoop, driveB, cleanupSt, setNode,
      St.init, cfgTwo, traceShape, limit_after_percent, Option.some_ne_none]

/-- C3 (amended): the scheduler installs no exception handler, so a
throwing task aborts the `async run()` loop: the failing iteration
increments `requests_made` and records the invocation (the task consumed
its turn and is never re-invoked), but `head` is not advanced, the cleanup
is skipped and `is_running` stays `true`; thereafter the pending-timer
wake is a no-op and any later `push` only splices, never invoking
anything — so subsequently queued tasks do not execute, rather than the
loop advancing normally. -/
theorem c3_throw_aborts_loop (cfg : DCfg) (s : St) (i : ℕ) (nd : QNode) (fuel : ℕ)
    (hh : s.head = some i) (ha : s.arena i = some nd) (ht : nd.throws = true) :
    runLoop cfg (fuel + 1) s =
      { s with requests_made := s.requests_made + 1,
               trace := s.trace ++ [TraceEv.invoke nd.fn_id s.now],
               pc := .crashed } ∧
    (∀ s' : St, s'.pc = .crashed → wakeB cfg s' = s') ∧
    (∀ (s' : St) (tid : ℕ) (thr p : Bool), s'.is_running = true →
        (pushFull cfg s' tid thr p).trace = s'.trace ∧
        (pushFull cfg s' tid thr p).pc = s'.pc) := by
  refine ⟨runLoop_throw cfg fuel s i nd hh ha ht, ?_, ?_⟩
  · intro s' hpc
    refine wakeB_skip cfg s' ?_
    rw [hpc]
    exact fun hcontra => PC.noConfusion hcontra
  · intro s' tid thr p hrun
    obtain ⟨h1, h2, _, h4, _⟩ := pushQ_fields s' tid thr p
    have heq : pushFull cfg s' tid thr p = pushQ s' tid thr p := by
      simp [pushFull, h1, hrun]
    rw [heq]
    exact ⟨h4, h2⟩

/-- C3 witness: the amended behavior at a concrete crashed limiter. -/
theorem c3_throw_aborts_loop_witness :
    (runLoop cfgTwo 1
        { St.init with arena := setNode St.init.arena 0 ⟨9, true, none⟩, alloc := 1,
                       head := some 0, tail := some 0, is_running := true } =
      { { St.init with arena := setNode St.init.arena 0 ⟨9, true, none⟩, alloc := 1,
                       head := some 0, tail := some 0, is_running := true } with
          requests_made := 0 + 1,
          trace := ([] : List TraceEv) ++ [TraceEv.invoke 9 0],
          pc := .crashed }) ∧
    (∀ s' : St, s'.pc = .crashed → wakeB cfgTwo s' = s') ∧
    (∀ (s' : St) (tid : ℕ) (thr p : Bool), s'.is_running = true →
        (pushFull cfgTwo s' tid thr p).trace = s'.trace ∧
        (pushFull cfgTwo s' tid thr p).pc = s'.pc) :=
  c3_throw_aborts_loop cfgTwo
    { St.init with arena := setNode St.init.arena 0 ⟨9, true, none⟩, alloc := 1,
                   head := some 0, tail := some 0, is_running := true }
    0 ⟨9, true, none⟩ 0 rfl rfl rfl

/-- C3 counterexample: a throwing task does not let the drain loop advance.
Pushing throwing task 1 and then task 2 into a `2 per second` limiter and
firing any pending timers leaves only task 1 invoked, the loop aborted
(`pc = crashed`), `head` still at the failed node, and `is_running` stuck
`true` — task 2 never executes, contradicting the claim that the loop
advances normally and subsequently queued tasks still execute. -/
theorem c3_counterexample :
    invokedIds (runEvents cfgTwo
      [.push 1 true false, .push 2 false false, .wake, .wake] St.init).trace = [1] ∧
    (runEvents cfgTwo
      [.push 1 true false, .push 2 false false, .wake, .wake] St.init).is_running = true ∧
    (runEvents cfgTwo
      [.push 1 true false, .push 2 false false, .wake, .wake] St.init).pc = .crashed ∧
    (runEvents cfgTwo
      [.push 1 true false, .push 2 false false, .wake, .wake] St.init).head = some 0 := by
  have hpc : (PC.crashed = PC.sleeping) = False := by simp
  refine ⟨?_, ?_, ?_, ?_⟩ <;>
    · simp only [runEvents, List.foldl, step]
      norm_num [pushFull, pushQ, wakeB, runLoop, driveB, cleanupSt, setNode, hpc,
        St.init, cfgTwo, invokedIds, limit_after_percent, Option.some_ne_none,
        List.filterMap_cons, List.filterMap_nil]

/-- C5 (confirmed): construction maps the four recognized unit strings to
exactly 1,000 / 60,000 / 3,600,000 / 86,400,000 ms; any other unit string
fails with the `Invalid duration` error in both variants, and the string
form `"Invalid Spec"` (split into count token `"Invalid"` and unit
`"Spec"`) also fails — no configuration is produced. -/
theorem c5_unit_validation (c : JSNum) (u : String)
    (h1 : u ≠ "per second") (h2 : u ≠ "per minute")
    (h3 : u ≠ "per hour") (h4 : u ≠ "per day") :
    (rateLimitCtor2 c "per second").map BCfgC.interval_ms = .ok 1000 ∧
    (rateLimitCtor2 c "per minute").map BCfgC.interval_ms = .ok 60000 ∧
    (rateLimitCtor2 c "per hour").map BCfgC.interval_ms = .ok 3600000 ∧
    (rateLimitCtor2 c "per day").map BCfgC.interval_ms = .ok 86400000 ∧
    rateLimitCtor2 c u = .error "Invalid duration" ∧
    rateLimitCtor2F c u = .error "Invalid duration" ∧
    rateLimitCtor1 "Invalid Spec" = .error "Invalid duration" ∧
    rateLimitCtor1F "Invalid Spec" = .error "Invalid duration" := by
  refine ⟨?_, ?_, ?_, ?_, ?_, ?_, ?_, ?_⟩
  · simp [rateLimitCtor2, intervalMsOf, Except.map]
  · simp [rateLimitCtor2, intervalMsOf, Except.map]
  · simp [rateLimitCtor2, intervalMsOf, Except.map]
  · simp [rateLimitCtor2, intervalMsOf, Except.map]
  · simp [rateLimitCtor2, intervalMsOf, h1, h2, h3, h4]
  · simp [rateLimitCtor2F, intervalMsOf, h1, h2, h3, h4]
  · simp [rateLimitCtor1, jsSplitOnce, rateLimitCtor2, intervalMsOf, parseIntJS]
  · simp [rateLimitCtor1F, jsSplitOnce, rateLimitCtor2F, intervalMsOf, parseIntJS]

/-- C5 witness: the validation at the concrete unrecognized unit `"Spec"`. -/
theorem c5_unit_validation_witness :
    ((rateLimitCtor2 (.fin 60) "per second").map BCfgC.interval_ms = .ok 1000 ∧
     (rateLimitCtor2 (.fin 60) "per minute").map BCfgC.interval_ms = .ok 60000 ∧
     (rateLimitCtor2 (.fin 60) "per hour").map BCfgC.interval_ms = .ok 3600000 ∧
     (rateLimitCtor2 (.fin 60) "per day").map BCfgC.interval_ms = .ok 86400000 ∧
     rateLimitCtor2 (.fin 60) "Spec" = .error "Invalid duration" ∧
     rateLimitCtor2F (.fin 60) "Spec" = .error "Invalid duration" ∧
     rateLimitCtor1 "Invalid Spec" = .error "Invalid duration" ∧
     rateLimitCtor1F "Invalid Spec" = .error "Invalid duration") :=
  c5_unit_validation (.fin 60) "Spec"
    (by decide) (by decide) (by decide) (by decide)

/-- C9 (amended): `push` never blocks on the pacing delay and, on an
already-draining limiter, returns after splicing without invoking
anything; but on an idle limiter `run()` — an `async` function called
without `await` — executes synchronously inside `push` up to its first
suspension point, so the newly pushed task is invoked before `push`
returns (contradicting the claim that push never invokes a queued task
before returning). -/
theorem c9_push_invokes_when_idle (cfg : DCfg) (tid : ℕ) (p : Bool) :
    (∀ (s : St) (thr : Bool), s.is_running = true →
        pushFull cfg s tid thr p = pushQ s tid thr p ∧
        (pushQ s tid thr p).trace = s.trace) ∧
    (∀ s : St, s.is_running = false → s.head = none →
        invokedIds (pushFull cfg s tid false p).trace = invokedIds s.trace ++ [tid]) := by
  constructor
  · intro s thr hrun
    obtain ⟨h1, _, _, h4, _⟩ := pushQ_fields s tid thr p
    exact ⟨by simp [pushFull, h1, hrun], h4⟩
  · intro s hrun hh
    cases p with
    | false =>
        simp only [pushFull, pushQ_norm_empty s tid false hh, hrun, Bool.false_eq_true, if_false]
        by_cases hb : ((s.requests_made + 1 : ℕ) : ℚ) / cfg.requests_allowed ≥ limit_after_percent
        · rw [runLoop_sleep cfg (s.alloc + 1)
            { s with arena := setNode s.arena s.alloc ⟨tid, false, none⟩, alloc := s.alloc + 1,
                     head := some s.alloc, tail := some s.alloc, is_running := true }
            s.alloc ⟨tid, false, none⟩ rfl (setNode_eq _ _ _) rfl hb]
          simp [invokedIds_append, invokedIds]
        · rw [runLoop_continue cfg (s.alloc + 1)
            { s with arena := setNode s.arena s.alloc ⟨tid, false, none⟩, alloc := s.alloc + 1,
                     head := some s.alloc, tail := some s.alloc, is_running := true }
            s.alloc ⟨tid, false, none⟩ rfl (setNode_eq _ _ _) rfl hb]
          rw [runLoop_head_none cfg s.alloc _ rfl]
          simp [cleanupSt, invokedIds_append, invokedIds]
    | true =>
        simp only [pushFull, pushQ_pri_empty s tid false hh, hrun, Bool.false_eq_true, if_false]
        by_cases hb : ((s.requests_made + 1 : ℕ) : ℚ) / cfg.requests_allowed ≥ limit_after_percent
        · rw [runLoop_sleep cfg (s.alloc + 1)
            { s with arena := setNode s.arena s.alloc ⟨tid, false, none⟩, alloc := s.alloc + 1,
                     head := some s.alloc, tail := some s.alloc, priority_tail := some s.alloc,
                     is_running := true }
            s.alloc ⟨tid, false, none⟩ rfl (setNode_eq _ _ _) rfl hb]
          simp [invokedIds_append, invokedIds]
        · rw [runLoop_continue cfg (s.alloc + 1)
            { s with arena := setNode s.arena s.alloc ⟨tid, false, none⟩, alloc := s.alloc + 1,
                     head := some s.alloc, tail := some s.alloc, priority_tail := some s.alloc,
                     is_running := true }
            s.alloc ⟨tid, false, none⟩ rfl (setNode_eq _ _ _) rfl hb]
          rw [runLoop_head_none cfg s.alloc _ rfl]
          simp [cleanupSt, invokedIds_append, invokedIds]

/-- C9 witness: the amended behavior at a concrete draining state and at
the concrete idle initial state. -/
theorem c9_push_invokes_when_idle_witness :
    ((∀ (s : St) (thr : Bool), s.is_running = true →
        pushFull cfgTwo s 7 thr false = pushQ s 7 thr false ∧
        (pushQ s 7 thr false).trace = s.trace) ∧
     (∀ s : St, s.is_running = false → s.head = none →
        invokedIds (pushFull cfgTwo s 7 false false).trace = invokedIds s.trace ++ [7])) :=
  c9_push_invokes_when_idle cfgTwo 7 false

/-- C9 counterexample: pushing task 7 to the freshly constructed (idle)
`60 per minute` burst limiter invokes task 7 synchronously during the
`push` call itself — the trace after `push` returns already contains the
invocation — falsifying "push never invokes any queued task before
returning". -/
theorem c9_counterexample :
    invokedIds (pushFull cfgSixty St.init 7 false false).trace = [7] ∧
    (pushFull cfgSixty St.init 7 false false).is_running = false := by
  constructor <;>
    norm_num [pushFull, pushQ, runLoop, cleanupSt, setNode, St.init, cfgSixty,
      invokedIds, limit_after_percent, Option.some_ne_none,
      List.filterMap_cons, List.filterMap_nil]

/-- C10 (confirmed): for every recognized unit the constructor accepts any
count without validation — a non-numeric leading token parses to `NaN`
and yields `delay_ms = NaN`, a zero count yields `delay_ms = Infinity`,
and a negative count yields a negative `delay_ms`; no error is raised in
any of these cases, in either variant. -/
theorem c10_count_unvalidated (c : JSNum) (u : String) (ms : ℚ)
    (h : intervalMsOf u = some ms) :
    rateLimitCtor2 c u
      = .ok ⟨jsDiv (jsDiv (.fin ms) c) (.fin (1 - limit_after_percent)), c, ms⟩ ∧
    parseIntJS "Invalid" = .nan ∧
    rateLimitCtor1 "Invalid per second" = .ok ⟨.nan, .nan, 1000⟩ ∧
    rateLimitCtor2 (.fin 0) "per second" = .ok ⟨.inf, .fin 0, 1000⟩ ∧
    rateLimitCtor2 (.fin (-5)) "per minute" = .ok ⟨.fin (-24000), .fin (-5), 60000⟩ ∧
    rateLimitCtor2F (.fin 0) "per second" = .ok ⟨.inf⟩ ∧
    rateLimitCtor2F (.fin (-5)) "per minute" = .ok ⟨.fin (-12000)⟩ := by
  have hs : (("per minute" : String) = "per second") = False := eq_false (by decide)
  refine ⟨?_, ?_, ?_, ?_, ?_, ?_, ?_⟩
  · simp [rateLimitCtor2, h]
  · simp [parseIntJS, digitsToNat]
  · rfl
  · norm_num [rateLimitCtor2, intervalMsOf, jsDiv, limit_after_percent]
  · norm_num [rateLimitCtor2, intervalMsOf, jsDiv, limit_after_percent, hs]
  · norm_num [rateLimitCtor2F, intervalMsOf, jsDiv]
  · norm_num [rateLimitCtor2F, intervalMsOf, jsDiv, hs]

/-- C10 witness: the unvalidated-count behavior at the concrete unit
`"per minute"`. -/
theorem c10_count_unvalidated_witness :
    (rateLimitCtor2 .nan "per minute"
      = .ok ⟨jsDiv (jsDiv (.fin 60000) .nan) (.fin (1 - limit_after_percent)), .nan, 60000⟩ ∧
     parseIntJS "Invalid" = .nan ∧
     rateLimitCtor1 "Invalid per second" = .ok ⟨.nan, .nan, 1000⟩ ∧
     rateLimitCtor2 (.fin 0) "per second" = .ok ⟨.inf, .fin 0, 1000⟩ ∧
     rateLimitCtor2 (.fin (-5)) "per minute" = .ok ⟨.fin (-24000), .fin (-5), 60000⟩ ∧
     rateLimitCtor2F (.fin 0) "per second" = .ok ⟨.inf⟩ ∧
     rateLimitCtor2F (.fin (-5)) "per minute" = .ok ⟨.fin (-12000)⟩) :=
  c10_count_unvalidated .nan "per minute" 60000 rfl

theorem wakeB_stuck (cfg : DCfg) (s : St) (hpc : s.pc = .sleeping) (hh : s.head = none) :
    wakeB cfg s = s := by
  rw [wakeB, if_pos hpc]
  simp only [hh]

theorem wakeB_run_dangling (cfg : DCfg) (s : St) (i : ℕ)
    (hpc : s.pc = .sleeping) (hh : s.head = some i) (ha : s.arena i = none) :
    wakeB cfg s =
      runLoop cfg (s.alloc + 1) { s with head := none, now := s.now + cfg.delay_ms } := by
  rw [wakeB, if_pos hpc]
  simp only [hh, ha]

theorem runLoopF_head_none (cfg : FCfg) (s : St) (h : s.head = none) :
    runLoopF cfg s = cleanupSt s := by
  simp only [runLoopF, h]

theorem runLoopF_dangling (cfg : FCfg) (s : St) (i : ℕ)
    (hh : s.head = some i) (ha : s.arena i = none) :
    runLoopF cfg s = cleanupSt s := by
  simp only [runLoopF, hh, ha]

theorem runLoopF_throw (cfg : FCfg) (s : St) (i : ℕ) (nd : QNode)
    (hh : s.head = some i) (ha : s.arena i = some nd) (ht : nd.throws = true) :
    runLoopF cfg s =
      { s with trace := s.trace ++ [TraceEv.invoke nd.fn_id s.now], pc := .crashed } := by
  simp only [runLoopF, hh, ha, ht, if_true]

theorem runLoopF_sleep (cfg : FCfg) (s : St) (i : ℕ) (nd : QNode)
    (hh : s.head = some i) (ha : s.arena i = some nd) (ht : nd.throws = false) :
    runLoopF cfg s =
      { s with trace := (s.trace ++ [TraceEv.invoke nd.fn_id s.now]) ++ [TraceEv.sleep cfg.delay_ms],
               pc := .sleeping } := by
  simp only [runLoopF, hh, ha, ht, Bool.false_eq_true, if_false]

/-- Invariant helper: whenever the burst-variant loop stops running, the
state was produced by the cleanup, so all three cursors are unset and the
limiter is idle. -/
theorem runLoop_stop_clean (cfg : DCfg) :
    ∀ (fuel : ℕ) (s : St), s.is_running = true →
      (runLoop cfg fuel s).is_running = false →
      (runLoop cfg fuel s).head = none ∧ (runLoop cfg fuel s).tail = none ∧
      (runLoop cfg fuel s).priority_tail = none ∧ (runLoop cfg fuel s).pc = .idle := by
  intro fuel
  induction fuel with
  | zero =>
      intro s hrun hstop
      simp only [runLoop] at hstop
      rw [hrun] at hstop
      exact absurd hstop (by simp)
  | succ f ih =>
      intro s hrun hstop
      cases hh : s.head with
      | none =>
          rw [runLoop_head_none cfg f s hh]
          exact ⟨rfl, rfl, rfl, rfl⟩
      | some i =>
          cases ha : s.arena i with
          | none =>
              rw [runLoop_dangling cfg f s i hh ha]
              exact ⟨rfl, rfl, rfl, rfl⟩
          | some nd =>
              by_cases ht : nd.throws = true
              · rw [runLoop_throw cfg f s i nd hh ha ht] at hstop
                exact absurd hstop (by simp [hrun])
              · rw [Bool.not_eq_true] at ht
                by_cases hb : ((s.requests_made + 1 : ℕ) : ℚ) / cfg.requests_allowed
                    ≥ limit_after_percent
                · rw [runLoop_sleep cfg f s i nd hh ha ht hb] at hstop
                  exact absurd hstop (by simp [hrun])
                · rw [runLoop_continue cfg f s i nd hh ha ht hb] at hstop ⊢
                  exact ih _ hrun hstop

/-- C7 (confirmed): when the drain loop of either variant exits (the
`is_running` flag drops back to `false`), it does so only through the
cleanup: `head`, `tail` and `priority_tail` are all unset and the state is
idle — this covers the loop body itself and a wake of the pending timer;
and a push onto a state with all three cursors unset starts a fresh
single-node chain at the new allocation rather than appending to stale
state. -/
theorem c7_cleanup_on_drain (cfg : DCfg) (fcfg : FCfg) :
    (∀ (fuel : ℕ) (s : St), s.is_running = true →
        (runLoop cfg fuel s).is_running = false →
        (runLoop cfg fuel s).head = none ∧ (runLoop cfg fuel s).tail = none ∧
        (runLoop cfg fuel s).priority_tail = none ∧ (runLoop cfg fuel s).pc = .idle) ∧
    (∀ s : St, s.is_running = true → (wakeB cfg s).is_running = false →
        (wakeB cfg s).head = none ∧ (wakeB cfg s).tail = none ∧
        (wakeB cfg s).priority_tail = none ∧ (wakeB cfg s).pc = .idle) ∧
    (∀ s : St, s.is_running = true → (runLoopF fcfg s).is_running = false →
        (runLoopF fcfg s).head = none ∧ (runLoopF fcfg s).tail = none ∧
        (runLoopF fcfg s).priority_tail = none ∧ (runLoopF fcfg s).pc = .idle) ∧
    (∀ s : St, s.is_running = true → (wakeF fcfg s).is_running = false →
        (wakeF fcfg s).head = none ∧ (wakeF fcfg s).tail = none ∧
        (wakeF fcfg s).priority_tail = none ∧ (wakeF fcfg s).pc = .idle) ∧
    (∀ (s : St) (tid : ℕ) (thr p : Bool),
        s.head = none → s.tail = none → s.priority_tail = none →
        (pushQ s tid thr p).head = some s.alloc ∧ (pushQ s tid thr p).tail = some s.alloc ∧
        (pushQ s tid thr p).arena s.alloc = some ⟨tid, thr, none⟩ ∧
        chainIds (pushQ s tid thr p) = [s.alloc]) := by
  have hF : ∀ s : St, s.is_running = true → (runLoopF fcfg s).is_running = false →
      (runLoopF fcfg s).head = none ∧ (runLoopF fcfg s).tail = none ∧
      (runLoopF fcfg s).priority_tail = none ∧ (runLoopF fcfg s).pc = .idle := by
    intro s hrun hstop
    cases hh : s.head with
    | none =>
        rw [runLoopF_head_none fcfg s hh]
        exact ⟨rfl, rfl, rfl, rfl⟩
    | some i =>
        cases ha : s.arena i with
        | none =>
            rw [runLoopF_dangling fcfg s i hh ha]
            exact ⟨rfl, rfl, rfl, rfl⟩
        | some nd =>
            by_cases ht : nd.throws = true
            · rw [runLoopF_throw fcfg s i nd hh ha ht] at hstop
              exact absurd hstop (by simp [hrun])
            · rw [Bool.not_eq_true] at ht
              rw [runLoopF_sleep fcfg s i nd hh ha ht] at hstop
              exact absurd hstop (by simp [hrun])
  refine ⟨runLoop_stop_clean cfg, ?_, hF, ?_, ?_⟩
  · intro s hrun hstop
    by_cases hpc : s.pc = .sleeping
    · cases hh : s.head with
      | none =>
          rw [wakeB_stuck cfg s hpc hh] at hstop
          exact absurd hstop (by simp [hrun])
      | some i =>
          cases ha : s.arena i with
          | none =>
              rw [wakeB_run_dangling cfg s i hpc hh ha] at hstop ⊢
              exact runLoop_stop_clean cfg _ _ hrun hstop
          | some nd =>
              rw [wakeB_run cfg s i nd hpc hh ha] at hstop ⊢
              exact runLoop_stop_clean cfg _ _ hrun hstop
    · rw [wakeB_skip cfg s hpc] at hstop
      exact absurd hstop (by simp [hrun])
  · intro s hrun hstop
    by_cases hpc : s.pc = .sleeping
    · cases hh : s.head with
      | none =>
          have heq : wakeF fcfg s = s := by
            rw [wakeF, if_pos hpc]
            simp only [hh]
          rw [heq] at hstop
          exact absurd hstop (by simp [hrun])
      | some i =>
          cases ha : s.arena i with
          | none =>
              have heq : wakeF fcfg s
                  = runLoopF fcfg { s with head := none, now := s.now + fcfg.delay_ms } := by
                rw [wakeF, if_pos hpc]
                simp only [hh, ha]
              rw [heq] at hstop ⊢
              exact hF _ hrun hstop
          | some nd =>
              have heq : wakeF fcfg s
                  = runLoopF fcfg { s with head := nd.next, now := s.now + fcfg.delay_ms } := by
                rw [wakeF, if_pos hpc]
                simp only [hh, ha]
              rw [heq] at hstop ⊢
              exact hF _ hrun hstop
    · have heq : wakeF fcfg s = s := by rw [wakeF, if_neg hpc]
      rw [heq] at hstop
      exact absurd hstop (by simp [hrun])
  · intro s tid thr p hh htl hpt
    cases p with
    | false =>
        rw [pushQ_norm_empty s tid thr hh]
        refine ⟨rfl, rfl, setNode_eq _ _ _, ?_⟩
        simp [chainIds, chainFrom, setNode_eq]
    | true =>
        rw [pushQ_pri_empty s tid thr hh]
        refine ⟨rfl, rfl, setNode_eq _ _ _, ?_⟩
        simp [chainIds, chainFrom, setNode_eq]

/-- C7 witness: the cleanup invariant at a concrete state whose last node
was just popped (the advance left `head` unset while `tail` and the heap
still hold the drained node), and the fresh-chain behavior of a push onto
the cleaned state. -/
theorem c7_cleanup_on_drain_witness :
    ((runLoop cfgTwo 2
        { St.init with arena := setNode St.init.arena 0 ⟨4, false, none⟩, alloc := 1,
                       tail := some 0, is_running := true,
                       requests_made := 1, pc := .sleeping, head := none }).head = none ∧
      (runLoop cfgTwo 2
        { St.init with arena := setNode St.init.arena 0 ⟨4, false, none⟩, alloc := 1,
                       tail := some 0, is_running := true,
                       requests_made := 1, pc := .sleeping, head := none }).tail = none ∧
      (runLoop cfgTwo 2
        { St.init with arena := setNode St.init.arena 0 ⟨4, false, none⟩, alloc := 1,
                       tail := some 0, is_running := true,
                       requests_made := 1, pc := .sleeping, head := none }).priority_tail = none ∧
      (runLoop cfgTwo 2
        { St.init with arena := setNode St.init.arena 0 ⟨4, false, none⟩, alloc := 1,
                       tail := some 0, is_running := true,
                       requests_made := 1, pc := .sleeping, head := none }).pc = .idle) ∧
    ((pushQ St.init 8 false false).head = some 0 ∧ (pushQ St.init 8 false false).tail = some 0 ∧
      (pushQ St.init 8 false false).arena 0 = some ⟨8, false, none⟩ ∧
      chainIds (pushQ St.init 8 false false) = [0]) :=
  ⟨(c7_cleanup_on_drain cfgTwo ⟨500⟩).1 2 _ rfl rfl,
   (c7_cleanup_on_drain cfgTwo ⟨500⟩).2.2.2.2 St.init 8 false false rfl rfl rfl⟩

/-- `RateLimit(4, 'per x')`-style burst drain configuration used for the
window-reset demonstration: quota 4, stored delay 500. -/
def cfgFour : DCfg := ⟨4, 500⟩

/-- C8 (confirmed): the `setInterval` callback of the burst variant sets
`requests_made` to 0 and touches nothing else, with no precondition on the
queue (it applies equally to an empty-queue state); the timer period is
the configured unit duration `interval_ms`; and a reset landing mid-burst
restores burst eligibility: with quota 4 and `requests_made = 2` after a
burst, the next wake throttles the following task, but after a reset the
same wake runs it with no suspension. -/
theorem c8_window_reset (cfg : DCfg) (c : JSNum) (u : String) (ms : ℚ)
    (h : intervalMsOf u = some ms) :
    (∀ s : St, step cfg s .reset = { s with requests_made := 0 }) ∧
    (rateLimitCtor2 c u).map BCfgC.interval_ms = .ok ms ∧
    traceShape (wakeB cfgFour (runEvents cfgFour
        [.push 1 false false, .push 2 false false, .push 3 false false] St.init)).trace
      = [.inv 1, .inv 2, .slp 500, .inv 3, .slp 500] ∧
    traceShape (wakeB cfgFour (step cfgFour (runEvents cfgFour
        [.push 1 false false, .push 2 false false, .push 3 false false] St.init) .reset)).trace
      = [.inv 1, .inv 2, .slp 500, .inv 3] := by
  refine ⟨fun s => rfl, by simp [rateLimitCtor2, h, Except.map], ?_, ?_⟩ <;>
    · simp only [runEvents, List.foldl, step]
      norm_num [pushFull, pushQ, wakeB, runLoop, driveB, cleanupSt, setNode,
        St.init, cfgFour, traceShape, limit_after_percent, Option.some_ne_none]

/-- C8 witness: the reset behavior at the concrete `60 per minute`
configuration. -/
theorem c8_window_reset_witness :
    ((∀ s : St, step cfgSixty s .reset = { s with requests_made := 0 }) ∧
     (rateLimitCtor2 (.fin 60) "per minute").map BCfgC.interval_ms = .ok 60000 ∧
     traceShape (wakeB cfgFour (runEvents cfgFour
         [.push 1 false false, .push 2 false false, .push 3 false false] St.init)).trace
       = [.inv 1, .inv 2, .slp 500, .inv 3, .slp 500] ∧
     traceShape (wakeB cfgFour (step cfgFour (runEvents cfgFour
         [.push 1 false false, .push 2 false false, .push 3 false false] St.init) .reset)).trace
       = [.inv 1, .inv 2, .slp 500, .inv 3]) :=
  c8_window_reset cfgSixty (.fin 60) "per minute" 60000 rfl

/-- C6 (confirmed): in the fixed-delay variant, for every count `n ≥ 1`
and recognized unit, the constructor stores exactly `unit_ms / n` (exact
rational arithmetic, no early rounding, as witnessed by
`delay_ms * n = unit_ms`); `'2 per second'` parses to a 500 ms delay, and
pushing three normal tasks at `t = 0` invokes them at `t = 0`, `t = 500`
and `t = 1000` ms. -/
theorem c6_fixed_delay_exact (n : ℕ) (hn : 1 ≤ n) (u : String) (ms : ℚ)
    (h : intervalMsOf u = some ms) :
    rateLimitCtor2F (.fin n) u = .ok ⟨.fin (ms / n)⟩ ∧
    (ms / (n : ℚ)) * n = ms ∧
    rateLimitCtor1F "2 per second" = .ok ⟨.fin 500⟩ ∧
    invokeTimes (runEventsF ⟨500⟩
      [.push 1 false false, .push 2 false false, .push 3 false false, .wake, .wake, .wake]
      St.init).trace = [(1, 0), (2, 500), (3, 1000)] := by
  have hne : (n : ℚ) ≠ 0 := Nat.cast_ne_zero.mpr (by omega)
  refine ⟨?_, div_mul_cancel₀ ms hne, ?_, ?_⟩
  · simp [rateLimitCtor2F, h, jsDiv, hne]
  · have hparse : jsSplitOnce "2 per second" = ("2", some "per second") := rfl
    have hint : parseIntJS "2" = .fin 2 := rfl
    simp only [rateLimitCtor1F, hparse, hint]
    norm_num [rateLimitCtor2F, intervalMsOf, jsDiv]
  · simp only [runEventsF, List.foldl, stepF]
    norm_num [pushFullF, pushQ, wakeF, runLoopF, cleanupSt, setNode,
      St.init, invokeTimes, Option.some_ne_none,
      List.filterMap_cons, List.filterMap_nil]

/-- C6 witness: the exact-delay facts at `n = 2`, unit `"per second"`. -/
theorem c6_fixed_delay_exact_witness :
    (rateLimitCtor2F (.fin (2 : ℕ)) "per second" = .ok ⟨.fin (1000 / (2 : ℕ))⟩ ∧
     ((1000 : ℚ) / ((2 : ℕ) : ℚ)) * ((2 : ℕ) : ℚ) = 1000 ∧
     rateLimitCtor1F "2 per second" = .ok ⟨.fin 500⟩ ∧
     invokeTimes (runEventsF ⟨500⟩
       [.push 1 false false, .push 2 false false, .push 3 false false, .wake, .wake, .wake]
       St.init).trace = [(1, 0), (2, 500), (3, 1000)]) :=
  c6_fixed_delay_exact 2 (by omega) "per second" 1000 rfl

theorem pushQ_pri_splice_dangling (s : St) (tid : ℕ) (thr : Bool) (ptv : ℕ)
    (hh : ¬ s.head = none) (hpt : s.priority_tail = some ptv) (ha : s.arena ptv = none) :
    pushQ s tid thr true = s := by
  simp [pushQ, hh, hpt, ha]

theorem pushQ_norm_tail_none (s : St) (tid : ℕ) (thr : Bool)
    (hh : ¬ s.head = none) (htl : s.tail = none) :
    pushQ s tid thr false = s := by
  simp [pushQ, hh, htl]

theorem pushQ_norm_tail_dangling (s : St) (tid : ℕ) (thr : Bool) (t : ℕ)
    (hh : ¬ s.head = none) (htl : s.tail = some t) (ha : s.arena t = none) :
    pushQ s tid thr false = s := by
  simp [pushQ, hh, htl, ha]

theorem splice_arena_self (arena : ℕ → Option QNode) (x : ℕ) (xnd : QNode) (n : ℕ)
    (newnd : QNode) (hxn : ¬ x = n) :
    setNode (setNode arena x xnd) n newnd x = some xnd := by
  rw [setNode_ne _ _ _ hxn, setNode_eq]

theorem splice_arena_other (arena : ℕ → Option QNode) (x : ℕ) (xnd : QNode) (n : ℕ)
    (newnd : QNode) (j : ℕ) (hjn : ¬ j = n) (hjx : ¬ j = x) :
    setNode (setNode arena x xnd) n newnd j = arena j := by
  rw [setNode_ne _ _ _ hjn, setNode_ne _ _ _ hjx]

theorem setNode_isSome (arena : ℕ → Option QNode) (k : ℕ) (nd : QNode) (j : ℕ)
    (h : (arena j).isSome = true) : ((setNode arena k nd j).isSome) = true := by
  by_cases hjk : j = k
  · subst hjk; rw [setNode_eq]; rfl
  · rw [setNode_ne _ _ _ hjk]; exact h

/-- After any push on a state whose `head` is either unset (with
`priority_tail` then also unset, as the cleanup guarantees) or a valid
node, the new `head` is a valid node. -/
theorem pushQ_head_valid (s : St) (tid : ℕ) (thr p : Bool)
    (hvalid : ∀ i, s.head = some i → (s.arena i).isSome = true) :
    ∃ j nd, (pushQ s tid thr p).head = some j ∧ (pushQ s tid thr p).arena j = some nd := by
  cases hh : s.head with
  | none =>
      cases p with
      | false =>
          rw [pushQ_norm_empty s tid thr hh]
          exact ⟨s.alloc, ⟨tid, thr, none⟩, rfl, setNode_eq _ _ _⟩
      | true =>
          rw [pushQ_pri_empty s tid thr hh]
          exact ⟨s.alloc, ⟨tid, thr, none⟩, rfl, setNode_eq _ _ _⟩
  | some i =>
      have hh' : ¬ s.head = none := by rw [hh]; exact fun hcontra => Option.noConfusion hcontra
      obtain ⟨nd0, ha0⟩ := Option.isSome_iff_exists.mp (hvalid i hh)
      cases p with
      | true =>
          cases hpt : s.priority_tail with
          | none =>
              rw [pushQ_pri_front s tid thr hh' hpt]
              exact ⟨s.alloc, ⟨tid, thr, s.head⟩, rfl, setNode_eq _ _ _⟩
          | some ptv =>
              cases hap : s.arena ptv with
              | none =>
                  rw [pushQ_pri_splice_dangling s tid thr ptv hh' hpt hap]
                  exact ⟨i, nd0, hh, ha0⟩
              | some pnd =>
                  rw [pushQ_pri_splice s tid thr ptv pnd hh' hpt hap]
                  refine ⟨i, ?_⟩
                  by_cases hin : i = s.alloc
                  · subst hin
                    exact ⟨⟨tid, thr, pnd.next⟩, hh, setNode_eq _ _ _⟩
                  · by_cases hip : i = ptv
                    · subst hip
                      exact ⟨⟨pnd.fn_id, pnd.throws, some s.alloc⟩, hh,
                        splice_arena_self s.arena i _ s.alloc _ hin⟩
                    · exact ⟨nd0, hh,
                        (splice_arena_other s.arena ptv _ s.alloc _ i hin hip).trans ha0⟩
      | false =>
          cases htl : s.tail with
          | none =>
              rw [pushQ_norm_tail_none s tid thr hh' htl]
              exact ⟨i, nd0, hh, ha0⟩
          | some t =>
              cases hat : s.arena t with
              | none =>
                  rw [pushQ_norm_tail_dangling s tid thr t hh' htl hat]
                  exact ⟨i, nd0, hh, ha0⟩
              | some tnd =>
                  rw [pushQ_norm_append s tid thr t tnd hh' htl hat]
                  refine ⟨i, ?_⟩
                  by_cases hin : i = s.alloc
                  · subst hin
                    exact ⟨⟨tid, thr, none⟩, hh, setNode_eq _ _ _⟩
                  · by_cases hit : i = t
                    · subst hit
                      exact ⟨⟨tnd.fn_id, tnd.throws, some s.alloc⟩, hh,
                        splice_arena_self s.arena i _ s.alloc _ hin⟩
                    · exact ⟨nd0, hh,
                        (splice_arena_other s.arena t _ s.alloc _ i hin hit).trans ha0⟩

/-- Entering the loop with a valid head node always records at least the
invocation of that node. -/
theorem runLoop_grows (cfg : DCfg) (fuel : ℕ) (s : St) (i : ℕ) (nd : QNode)
    (hh : s.head = some i) (ha : s.arena i = some nd) :
    s.trace.length < (runLoop cfg (fuel + 1) s).trace.length := by
  by_cases ht : nd.throws = true
  · rw [runLoop_throw cfg fuel s i nd hh ha ht]
    simp
  · rw [Bool.not_eq_true] at ht
    by_cases hb : ((s.requests_made + 1 : ℕ) : ℚ) / cfg.requests_allowed ≥ limit_after_percent
    · rw [runLoop_sleep cfg fuel s i nd hh ha ht hb]
      simp
    · rw [runLoop_continue cfg fuel s i nd hh ha ht hb]
      obtain ⟨t, hteq⟩ := runLoop_trace_extend cfg fuel
        { s with requests_made := s.requests_made + 1,
                 trace := s.trace ++ [TraceEv.invoke nd.fn_id s.now],
                 head := nd.next }
      rw [hteq]
      simp [List.length_append]

/-- C4 (amended): `push` triggers `run()` exactly when `is_running` is
`false` — pushing to a draining limiter only splices (same `pc`, same
trace: no second loop, nothing invoked), while pushing to an idle limiter
(with `head` either unset or an allocated node, as in every reachable
state) observably starts a drain: at least one task is invoked.  The
claim's "picked up because it is part of the chain" clause holds only
conditionally: a normal push joins the chain from `head` exactly when
`tail` still lies on that chain as its last node — the third conjunct
below, whose `tail`-on-chain hypotheses are essential.  When the append
cursor is stale — `tail` or `priority_tail` aliasing a node the drain
already popped, as happens after a chain epoch that began with a priority
push — the new node is spliced outside the chain and never picked up, for
normal and priority pushes alike (see the counterexample for both). -/
theorem c4_single_flight (cfg : DCfg) (tid : ℕ) (thr p : Bool) :
    (∀ s : St, s.is_running = true →
        pushFull cfg s tid thr p = pushQ s tid thr p ∧
        (pushQ s tid thr p).pc = s.pc ∧
        (pushQ s tid thr p).trace = s.trace) ∧
    (∀ s : St, s.is_running = false →
        (∀ i, s.head = some i → (s.arena i).isSome = true) →
        s.trace.length < (pushFull cfg s tid thr p).trace.length) ∧
    (∀ (s : St) (idxs : List ℕ) (t : ℕ), s.is_running = true →
        linkedB s.arena s.head idxs = true → idxs.Nodup →
        s.tail = some t → idxs.getLast? = some t →
        (∀ i ∈ idxs, i < s.alloc) →
        linkedB (pushQ s tid thr false).arena (pushQ s tid thr false).head
          (idxs ++ [s.alloc]) = true) := by
  refine ⟨?_, ?_, ?_⟩
  · intro s hrun
    obtain ⟨h1, h2, _, h4, _⟩ := pushQ_fields s tid thr p
    exact ⟨by simp [pushFull, h1, hrun], h2, h4⟩
  · intro s hrun hvalid
    obtain ⟨j, nd, hj, hnd⟩ := pushQ_head_valid s tid thr p hvalid
    obtain ⟨h1, _, _, h4, _⟩ := pushQ_fields s tid thr p
    have heq : pushFull cfg s tid thr p
        = runLoop cfg ((pushQ s tid thr p).alloc + 1)
            { pushQ s tid thr p with is_running := true } := by
      simp [pushFull, h1, hrun]
    rw [heq]
    calc s.trace.length = ({ pushQ s tid thr p with is_running := true } : St).trace.length := by
          rw [← h4]
      _ < _ := runLoop_grows cfg (pushQ s tid thr p).alloc _ j nd hj hnd
  · intro s idxs t _ hl hnd htl hlast hbnd
    have hne : idxs ≠ [] := by
      intro hcontra
      rw [hcontra] at hlast
      exact Option.noConfusion hlast
    have hh' : ¬ s.head = none := by
      intro hcontra
      cases hx : idxs with
      | nil => exact hne hx
      | cons a l =>
          rw [hx] at hl
          obtain ⟨hcur, _⟩ := linkedB_cons_iff.mp hl
          rw [hcontra] at hcur
          exact Option.noConfusion hcur
    have htm : t ∈ idxs := List.mem_of_mem_getLast? hlast
    obtain ⟨tnd, hat⟩ := linkedB_presence hl t htm
    have hfresh : s.alloc ∉ idxs := fun hmem => lt_irrefl _ (hbnd _ hmem)
    rw [pushQ_norm_append s tid thr t tnd hh' htl hat]
    exact linkedB_snoc_new s.alloc tid thr hl hlast hat hnd hfresh

/-- C4 witness: the single-flight behavior at concrete states — a draining
limiter, the idle initial limiter, and a draining single-node chain
receiving a normal push. -/
theorem c4_single_flight_witness :
    (pushFull cfgTwo { St.init with is_running := true } 5 false false
        = pushQ { St.init with is_running := true } 5 false false ∧
      (pushQ { St.init with is_running := true } 5 false false).pc
        = ({ St.init with is_running := true } : St).pc ∧
      (pushQ { St.init with is_running := true } 5 false false).trace
        = ({ St.init with is_running := true } : St).trace) ∧
    (St.init.trace.length < (pushFull cfgTwo St.init 5 false false).trace.length) ∧
    linkedB (pushQ
        { St.init with arena := setNode St.init.arena 0 ⟨1, false, none⟩, alloc := 1,
                       head := some 0, tail := some 0, is_running := true }
        5 false false).arena
      (pushQ
        { St.init with arena := setNode St.init.arena 0 ⟨1, false, none⟩, alloc := 1,
                       head := some 0, tail := some 0, is_running := true }
        5 false false).head ([0] ++ [1]) = true :=
  ⟨(c4_single_flight cfgTwo 5 false false).1 _ rfl,
   (c4_single_flight cfgTwo 5 false false).2.1 St.init rfl
     (fun i h => Option.noConfusion h),
   (c4_single_flight cfgTwo 5 false false).2.2 _ [0] 0 rfl (by decide) (by decide) rfl rfl
     (by decide)⟩

/-- C4 counterexample: on a `2 per second` burst limiter, a node pushed to
an already-draining limiter can fail to be part of the chain from `head`
and is then never picked up — for a priority push AND for a normal push.
Priority case (stale `priority_tail`): after [push 1 priority (invoked at
once, loop sleeps), push 2 normal, wake (task 2 invoked)], the limiter is
still draining but `priority_tail` aliases the already-popped node 1;
pushing priority task 3 splices after that stale node: no second loop
starts, yet the chain from `head` holds only task 2 and the remaining
wakes finish the drain with invocations [1, 2] — task 3 never runs.
Normal case (stale `tail`): after [push 1 priority, push 2 priority, wake
(task 2 invoked)], `tail` still aliases the popped node 1 (the empty-queue
priority branch set `tail` and the priority splice never updates it);
pushing NORMAL task 3 appends behind that popped node: the limiter is
draining, the chain from `head` holds only task 2, and the drain completes
with invocations [1, 2] — the normally pushed task 3 is never picked up
either.  Both traces falsify "the newly pushed node is picked up by the
already-running loop because it is part of the chain". -/
theorem c4_counterexample :
    (runEvents cfgTwo [.push 1 false true, .push 2 false false, .wake] St.init).is_running
      = true ∧
    chainTaskIds (runEvents cfgTwo
      [.push 1 false true, .push 2 false false, .wake, .push 3 false true] St.init) = [2] ∧
    invokedIds (runEvents cfgTwo
      [.push 1 false true, .push 2 false false, .wake, .push 3 false true, .wake, .wake]
      St.init).trace = [1, 2] ∧
    (runEvents cfgTwo [.push 1 false true, .push 2 false true, .wake] St.init).is_running
      = true ∧
    chainTaskIds (runEvents cfgTwo
      [.push 1 false true, .push 2 false true, .wake, .push 3 false false] St.init) = [2] ∧
    invokedIds (runEvents cfgTwo
      [.push 1 false true, .push 2 false true, .wake, .push 3 false false, .wake, .wake]
      St.init).trace = [1, 2] := by
  refine ⟨?_, ?_, ?_, ?_, ?_, ?_⟩ <;>
    · simp only [runEvents, List.foldl, step]
      norm_num [pushFull, pushQ, wakeB, runLoop, driveB, cleanupSt, setNode,
        St.init, cfgTwo, invokedIds, chainTaskIds, chainIds, chainFrom, idAt,
        limit_after_percent, Option.some_ne_none,
        List.filterMap_cons, List.filterMap_nil]

end RL
